import Mathlib

/-!
Shallow embedding of the AC Protect rule-evaluation engine
(`src/server/rules/interval.py`, `src/server/rules/version_events.py`,
`src/server/classes/alerts.py`, `src/server/classes/rules.py`,
`src/server/db/bq.py`, `src/server/orchestrator.py`).

Modelling conventions:
* pandas DataFrames become Lean lists of record structures; row order is the
  frame's row order.
* `None`-able DataFrames (`dict[pd.DataFrame | None]`) become `Option (List _)`.
* Python code that can raise becomes `Except String _`; the error string names
  the Python exception.
* Dates (`date_added`, `'YYYY-MM-DD'`) are day indices (`Int`); datetimes
  (store `timestamp`, `datetime.now()`) are hour counts (`Int`), so a date `d`
  corresponds to the datetime `24 * d` (midnight).
* Python `set(...)` conversions (used only for membership / deduplication) are
  modelled by first-occurrence deduplication `uniqueFirst`; only membership in
  the result is ever consumed by the code, except in
  `compare_events_between_versions` where the set-iteration order (arbitrary in
  Python) is fixed to first-occurrence order.
* The regex `^\d+\.\d+\.\d+$` is modelled for ASCII digits.
-/

namespace ACProtect

/-- First-occurrence deduplication, the semantics of `pandas.Series.unique`
(and the membership semantics of Python `list(set(...))`). -/
def uniqueFirstAux [DecidableEq α] (seen : List α) : List α → List α
  | [] => []
  | x :: xs =>
    if x ∈ seen then uniqueFirstAux seen xs
    else x :: uniqueFirstAux (x :: seen) xs

def uniqueFirst [DecidableEq α] (l : List α) : List α :=
  uniqueFirstAux [] l

theorem mem_uniqueFirstAux [DecidableEq α] (seen : List α) (l : List α) (a : α) :
    a ∈ uniqueFirstAux seen l ↔ a ∈ l ∧ a ∉ seen := by
  induction l generalizing seen with
  | nil => simp [uniqueFirstAux]
  | cons x xs ih =>
    by_cases hx : x ∈ seen
    · rw [uniqueFirstAux, if_pos hx, ih]
      constructor
      · rintro ⟨h1, h2⟩
        exact ⟨List.mem_cons_of_mem _ h1, h2⟩
      · rintro ⟨h1, h2⟩
        rcases List.mem_cons.mp h1 with rfl | h1
        · exact absurd hx h2
        · exact ⟨h1, h2⟩
    · rw [uniqueFirstAux, if_neg hx]
      constructor
      · intro h
        rcases List.mem_cons.mp h with rfl | h
        · exact ⟨List.mem_cons_self _ _, hx⟩
        · rcases (ih (x :: seen)).mp h with ⟨h1, h2⟩
          exact ⟨List.mem_cons_of_mem _ h1,
            fun hs => h2 (List.mem_cons_of_mem _ hs)⟩
      · rintro ⟨h1, h2⟩
        rcases List.mem_cons.mp h1 with rfl | h1
        · exact List.mem_cons_self _ _
        · by_cases hax : a = x
          · exact hax ▸ List.mem_cons_self _ _
          · refine List.mem_cons_of_mem _ ((ih (x :: seen)).mpr ⟨h1, fun hs => ?_⟩)
            rcases List.mem_cons.mp hs with h | h
            · exact hax h
            · exact h2 h

theorem mem_uniqueFirst [DecidableEq α] (l : List α) (a : α) :
    a ∈ uniqueFirst l ↔ a ∈ l := by
  simp [uniqueFirst, mem_uniqueFirstAux]

theorem uniqueFirstAux_nodup [DecidableEq α] (seen : List α) (l : List α) :
    (uniqueFirstAux seen l).Nodup := by
  induction l generalizing seen with
  | nil => simp [uniqueFirstAux]
  | cons x xs ih =>
    by_cases hx : x ∈ seen
    · simpa [uniqueFirstAux, if_pos hx] using ih seen
    · simp only [uniqueFirstAux, if_neg hx, List.nodup_cons]
      refine ⟨fun hmem => ?_, ih (x :: seen)⟩
      exact ((mem_uniqueFirstAux _ _ _).mp hmem).2 (List.mem_cons_self x seen)

theorem uniqueFirst_nodup [DecidableEq α] (l : List α) : (uniqueFirst l).Nodup :=
  uniqueFirstAux_nodup [] l

/-- On a list whose elements are all `a`, `uniqueFirst` collapses to `[a]`. -/
theorem uniqueFirst_const [DecidableEq α] (l : List α) (a : α)
    (hne : l ≠ []) (hall : ∀ x ∈ l, x = a) : uniqueFirst l = [a] := by
  have haux : ∀ ys : List α, (∀ y ∈ ys, y = a) → uniqueFirstAux [a] ys = [] := by
    intro ys
    induction ys with
    | nil => intro h; rfl
    | cons y ys ihy =>
      intro h
      have hy : y = a := h y (List.mem_cons_self _ _)
      subst hy
      rw [uniqueFirstAux, if_pos (List.mem_cons_self y [])]
      exact ihy fun z hz => h z (List.mem_cons_of_mem _ hz)
  cases l with
  | nil => exact absurd rfl hne
  | cons x xs =>
    have hx : x = a := hall x (List.mem_cons_self _ _)
    subst hx
    show uniqueFirstAux [] (x :: xs) = [x]
    rw [uniqueFirstAux, if_neg (List.not_mem_nil x),
      haux xs fun z hz => hall z (List.mem_cons_of_mem _ hz)]

/-! ## Semantic versions (`semantic_version.Version` restricted to `X.Y.Z`). -/

/-- A parsed `major.minor.patch` semantic version
(the fragment of `semantic_version.Version` this code base produces). -/
structure Ver where
  major : Nat
  minor : Nat
  patch : Nat
deriving DecidableEq, Repr

/-- `Version.__lt__`: lexicographic comparison of `(major, minor, patch)`. -/
def verLt (a b : Ver) : Bool :=
  a.major < b.major ||
    (a.major == b.major &&
      (a.minor < b.minor || (a.minor == b.minor && a.patch < b.patch)))

def verLe (a b : Ver) : Bool := verLt a b || a == b

theorem verLt_irrefl (a : Ver) : verLt a a = false := by
  simp [verLt]

theorem verLt_trans {a b c : Ver} (h1 : verLt a b = true) (h2 : verLt b c = true) :
    verLt a c = true := by
  rcases a with ⟨a1, a2, a3⟩; rcases b with ⟨b1, b2, b3⟩; rcases c with ⟨c1, c2, c3⟩
  simp only [verLt, Bool.or_eq_true, Bool.and_eq_true, decide_eq_true_eq,
    beq_iff_eq] at h1 h2 ⊢
  omega

theorem verLt_total (a b : Ver) :
    verLt a b = true ∨ a = b ∨ verLt b a = true := by
  rcases a with ⟨a1, a2, a3⟩; rcases b with ⟨b1, b2, b3⟩
  simp only [verLt, Bool.or_eq_true, Bool.and_eq_true, decide_eq_true_eq,
    beq_iff_eq, Ver.mk.injEq]
  omega

theorem verLe_iff (a b : Ver) : verLe a b = true ↔ verLt a b = true ∨ a = b := by
  simp [verLe, beq_iff_eq]

theorem verLe_of_not_lt {a b : Ver} (h : ¬ verLt a b = true) : verLe b a = true := by
  rcases verLt_total a b with h1 | h1 | h1
  · exact absurd h1 h
  · exact (verLe_iff b a).mpr (Or.inr h1.symm)
  · exact (verLe_iff b a).mpr (Or.inl h1)

/-- `SimpleSpec.select`: the highest version in the list, `None` when empty.
On equal maxima the earlier element is kept (irrelevant: `Ver` is pure data). -/
def selectMax : List Ver → Option Ver
  | [] => none
  | v :: vs =>
    match selectMax vs with
    | none => some v
    | some w => some (if verLt v w then w else v)

theorem verLe_trans {a b c : Ver} (h1 : verLe a b = true) (h2 : verLe b c = true) :
    verLe a c = true := by
  rcases a with ⟨a1, a2, a3⟩; rcases b with ⟨b1, b2, b3⟩; rcases c with ⟨c1, c2, c3⟩
  simp only [verLe, verLt, Bool.or_eq_true, Bool.and_eq_true, decide_eq_true_eq,
    beq_iff_eq, Ver.mk.injEq] at h1 h2 ⊢
  omega

theorem selectMax_eq_none : ∀ (l : List Ver), selectMax l = none ↔ l = [] := by
  intro l
  cases l with
  | nil => simp [selectMax]
  | cons v vs =>
    simp only [selectMax]
    cases selectMax vs <;> simp

theorem selectMax_mem : ∀ (l : List Ver) (m : Ver), selectMax l = some m → m ∈ l := by
  intro l
  induction l with
  | nil => intro m h; simp [selectMax] at h
  | cons v vs ih =>
    intro m h
    rw [selectMax] at h
    cases hvs : selectMax vs with
    | none => rw [hvs] at h; cases h; exact List.mem_cons_self _ _
    | some w =>
      rw [hvs] at h
      dsimp only at h
      by_cases hlt : verLt v w = true
      · rw [if_pos hlt] at h
        injection h with h
        exact List.mem_cons_of_mem _ (h ▸ ih w hvs)
      · rw [if_neg hlt] at h
        injection h with h
        exact h ▸ List.mem_cons_self _ _

theorem selectMax_ge : ∀ (l : List Ver) (m : Ver), selectMax l = some m →
    ∀ x ∈ l, verLe x m = true := by
  intro l
  induction l with
  | nil => intro m _ x hx; simp at hx
  | cons v vs ih =>
    intro m h x hx
    rw [selectMax] at h
    cases hvs : selectMax vs with
    | none =>
      rw [hvs] at h
      cases h
      rcases List.mem_cons.mp hx with rfl | hx'
      · exact (verLe_iff x x).mpr (Or.inr rfl)
      · rw [(selectMax_eq_none vs).mp hvs] at hx'
        simp at hx'
    | some w =>
      rw [hvs] at h
      dsimp only at h
      by_cases hlt : verLt v w = true
      · rw [if_pos hlt] at h
        injection h with h
        subst h
        rcases List.mem_cons.mp hx with rfl | hx'
        · exact (verLe_iff x w).mpr (Or.inl hlt)
        · exact ih w hvs x hx'
      · rw [if_neg hlt] at h
        injection h with h
        subst h
        rcases List.mem_cons.mp hx with rfl | hx'
        · exact (verLe_iff x x).mpr (Or.inr rfl)
        · exact verLe_trans (ih w hvs x hx') (verLe_of_not_lt hlt)


/-! ## Decimal digit strings (`str(n)` / the version-string fragment of
`semantic_version.Version` parsing). -/

/-- ASCII digit test (the `\\d` of `^\\d+\\.\\d+\\.\\d+$` on ASCII input). -/
def isDigitCh (c : Char) : Bool := 48 ≤ c.toNat && c.toNat ≤ 57

def digitChar : Nat → Char
  | 0 => '0' | 1 => '1' | 2 => '2' | 3 => '3' | 4 => '4'
  | 5 => '5' | 6 => '6' | 7 => '7' | 8 => '8' | _ => '9'

def natDigitsFuel : Nat → Nat → List Char
  | 0, n => [digitChar n]
  | fuel + 1, n =>
    if n < 10 then [digitChar n]
    else natDigitsFuel fuel (n / 10) ++ [digitChar (n % 10)]

/-- Decimal digits of `n`, most significant first: `str(n)`. (Structural
recursion on a fuel argument so that the kernel can evaluate it; the fuel
`n` always suffices.) -/
def natDigits (n : Nat) : List Char := natDigitsFuel n n

theorem natDigitsFuel_irrel (n : Nat) : ∀ f1 f2 : Nat, n ≤ f1 → n ≤ f2 →
    natDigitsFuel f1 n = natDigitsFuel f2 n := by
  induction n using Nat.strong_induction_on with
  | _ n ih =>
    intro f1 f2 h1 h2
    by_cases hn : n < 10
    · rcases f1 with _ | k1 <;> rcases f2 with _ | k2 <;>
        simp [natDigitsFuel, if_pos hn]
    · rcases f1 with _ | k1
      · omega
      rcases f2 with _ | k2
      · omega
      rw [natDigitsFuel, natDigitsFuel, if_neg hn, if_neg hn]
      rw [ih (n / 10) (Nat.div_lt_self (by omega) (by omega)) k1 k2
        (by omega) (by omega)]

/-- The recursive unfolding of `natDigits`. -/
theorem natDigits_eq (n : Nat) : natDigits n =
    if n < 10 then [digitChar n] else natDigits (n / 10) ++ [digitChar (n % 10)] := by
  rcases n with _ | k
  · rfl
  · show natDigitsFuel (k + 1) (k + 1) = _
    rw [natDigitsFuel]
    by_cases hn : k + 1 < 10
    · rw [if_pos hn, if_pos hn]
    · rw [if_neg hn, if_neg hn]
      rw [natDigitsFuel_irrel ((k + 1) / 10) k ((k + 1) / 10) (by omega) (by omega)]
      rfl

def charsToNatAux (acc : Nat) : List Char → Nat
  | [] => acc
  | c :: cs => charsToNatAux (10 * acc + (c.toNat - 48)) cs

/-- Value of a decimal digit string (`int(s)` on digit strings). -/
def charsToNat (cs : List Char) : Nat := charsToNatAux 0 cs

theorem digitChar_spec (d : Nat) (h : d < 10) :
    (digitChar d).toNat = 48 + d ∧ isDigitCh (digitChar d) = true ∧
      digitChar d ≠ '.' := by
  interval_cases d <;> exact ⟨rfl, rfl, by decide⟩

theorem digitChar_ne_zero (d : Nat) (h1 : 1 ≤ d) (h2 : d < 10) :
    digitChar d ≠ '0' := by
  interval_cases d <;> decide

theorem charsToNatAux_append (acc : Nat) (cs1 cs2 : List Char) :
    charsToNatAux acc (cs1 ++ cs2) = charsToNatAux (charsToNatAux acc cs1) cs2 := by
  induction cs1 generalizing acc with
  | nil => rfl
  | cons c cs ih => exact ih _

theorem natDigits_ne_nil (n : Nat) : natDigits n ≠ [] := by
  rw [natDigits_eq]
  by_cases h : n < 10
  · rw [if_pos h]; simp
  · rw [if_neg h]; simp

theorem natDigits_all_digits (n : Nat) :
    ∀ c ∈ natDigits n, isDigitCh c = true ∧ c ≠ '.' := by
  induction n using Nat.strong_induction_on with
  | _ n ih =>
    intro c hc
    rw [natDigits_eq] at hc
    by_cases h : n < 10
    · rw [if_pos h] at hc
      rcases List.mem_singleton.mp hc with rfl
      exact ⟨(digitChar_spec n h).2.1, (digitChar_spec n h).2.2⟩
    · rw [if_neg h] at hc
      rcases List.mem_append.mp hc with hc | hc
      · exact ih (n / 10) (Nat.div_lt_self (by omega) (by omega)) c hc
      · rcases List.mem_singleton.mp hc with rfl
        exact ⟨(digitChar_spec _ (Nat.mod_lt _ (by omega))).2.1,
          (digitChar_spec _ (Nat.mod_lt _ (by omega))).2.2⟩

theorem natDigits_head_ne_zero (n : Nat) (hn : 1 ≤ n) :
    ∀ c rest, natDigits n = c :: rest → c ≠ '0' := by
  induction n using Nat.strong_induction_on with
  | _ n ih =>
    intro c rest hdig
    rw [natDigits_eq] at hdig
    by_cases h : n < 10
    · rw [if_pos h] at hdig
      injection hdig with h1 h2
      exact h1 ▸ digitChar_ne_zero n hn h
    · rw [if_neg h] at hdig
      rcases hhead : natDigits (n / 10) with _ | ⟨c0, rest0⟩
      · exact absurd hhead (natDigits_ne_nil _)
      · rw [hhead, List.cons_append] at hdig
        injection hdig with h1 h2
        exact h1 ▸ ih (n / 10) (Nat.div_lt_self (by omega) (by omega))
          (by omega) c0 rest0 hhead

theorem charsToNat_natDigits (n : Nat) : charsToNat (natDigits n) = n := by
  induction n using Nat.strong_induction_on with
  | _ n ih =>
    rw [natDigits_eq]
    by_cases h : n < 10
    · rw [if_pos h]
      show charsToNatAux (10 * 0 + ((digitChar n).toNat - 48)) [] = n
      show 10 * 0 + ((digitChar n).toNat - 48) = n
      rw [(digitChar_spec n h).1]
      omega
    · rw [if_neg h]
      show charsToNatAux 0 (natDigits (n / 10) ++ [digitChar (n % 10)]) = n
      rw [charsToNatAux_append]
      have hrec : charsToNatAux 0 (natDigits (n / 10)) = n / 10 :=
        ih (n / 10) (Nat.div_lt_self (by omega) (by omega))
      rw [hrec]
      show 10 * (n / 10) + ((digitChar (n % 10)).toNat - 48) = n
      rw [(digitChar_spec _ (Nat.mod_lt _ (by omega))).1]
      omega

/-! ## Splitting on the dot (`str.split`-style, as used by
`^\\d+\\.\\d+\\.\\d+$` matching and `Version` parsing). -/

def splitDots : List Char → List (List Char)
  | [] => [[]]
  | c :: cs =>
    if c = '.' then [] :: splitDots cs
    else
      match splitDots cs with
      | [] => [[c]]
      | g :: gs => (c :: g) :: gs

theorem splitDots_ne_nil (cs : List Char) : splitDots cs ≠ [] := by
  cases cs with
  | nil => simp [splitDots]
  | cons c cs =>
    rw [splitDots]
    by_cases h : c = '.'
    · rw [if_pos h]; simp
    · rw [if_neg h]
      cases splitDots cs <;> simp

theorem splitDots_noDot (cs : List Char) (h : ∀ c ∈ cs, c ≠ '.') :
    splitDots cs = [cs] := by
  induction cs with
  | nil => rfl
  | cons c cs ih =>
    rw [splitDots, if_neg (h c (List.mem_cons_self _ _))]
    rw [ih fun x hx => h x (List.mem_cons_of_mem _ hx)]

theorem splitDots_dot_cons (cs : List Char) :
    splitDots ('.' :: cs) = [] :: splitDots cs := by
  rw [splitDots, if_pos rfl]

theorem splitDots_append (xs ys : List Char) (g : List Char) (gs : List (List Char))
    (hx : ∀ c ∈ xs, c ≠ '.') (hy : splitDots ys = g :: gs) :
    splitDots (xs ++ ys) = (xs ++ g) :: gs := by
  induction xs with
  | nil => simpa using hy
  | cons c cs ih =>
    rw [List.cons_append, splitDots, if_neg (hx c (List.mem_cons_self _ _))]
    rw [ih fun x h => hx x (List.mem_cons_of_mem _ h)]
    simp

/-! ## Version strings. -/

/-- `is_version` (version_events.py:257-267): the strict `X.Y.Z` regex
`^\\d+\\.\\d+\\.\\d+$`. -/
def is_version (s : String) : Bool :=
  match splitDots s.data with
  | [a, b, c] => (!a.isEmpty && a.all isDigitCh) && (!b.isEmpty && b.all isDigitCh)
      && (!c.isEmpty && c.all isDigitCh)
  | _ => false

/-- One numeric component accepted by `semantic_version.Version`:
`0|[1-9]\\d*` (a leading zero, e.g. `01`, raises `ValueError`). -/
def strictComp (cs : List Char) : Option Nat :=
  match cs with
  | [] => none
  | c :: rest =>
    if isDigitCh c && rest.all isDigitCh && (c != '0' || rest.isEmpty) then
      some (charsToNat (c :: rest))
    else none

/-- `semantic_version.Version(s)` on the plain `X.Y.Z` fragment: `some` when
the constructor succeeds, `none` when it raises `ValueError`. (Pre-release /
build-metadata forms never occur in this pipeline and are not modelled.) -/
def parseVer (s : String) : Option Ver :=
  match splitDots s.data with
  | [a, b, c] =>
    match strictComp a, strictComp b, strictComp c with
    | some x, some y, some z => some ⟨x, y, z⟩
    | _, _, _ => none
  | _ => none

/-- `str(Version(...))`: canonical `major.minor.patch` rendering. -/
def verToString (v : Ver) : String :=
  ⟨natDigits v.major ++ '.' :: natDigits v.minor ++ '.' :: natDigits v.patch⟩

theorem strictComp_natDigits (n : Nat) : strictComp (natDigits n) = some n := by
  rcases hd : natDigits n with _ | ⟨c, rest⟩
  · exact absurd hd (natDigits_ne_nil n)
  · rw [strictComp]
    have hall : ∀ x ∈ natDigits n, isDigitCh x = true :=
      fun x hx => (natDigits_all_digits n x hx).1
    have hc : isDigitCh c = true := hall c (hd ▸ List.mem_cons_self _ _)
    have hrest : rest.all isDigitCh = true :=
      List.all_eq_true.mpr fun x hx =>
        hall x (hd ▸ List.mem_cons_of_mem _ hx)
    have hlead : (c != '0' || rest.isEmpty) = true := by
      by_cases hn : n = 0
      · subst hn
        have h0 : natDigits 0 = ['0'] := by
          rw [natDigits_eq, if_pos (by omega : (0:Nat) < 10)]
          rfl
        rw [h0] at hd
        injection hd with h1 h2
        subst h2; simp
      · have := natDigits_head_ne_zero n (by omega) c rest hd
        simp [bne_iff_ne, this]
    have hcond : (isDigitCh c && rest.all isDigitCh && (c != '0' || rest.isEmpty))
        = true := by rw [hc, hrest, hlead]; rfl
    rw [if_pos hcond, ← hd, charsToNat_natDigits]

theorem splitDots_verToString (v : Ver) :
    splitDots (verToString v).data =
      [natDigits v.major, natDigits v.minor, natDigits v.patch] := by
  show splitDots (natDigits v.major ++ '.' :: natDigits v.minor ++
    '.' :: natDigits v.patch) = _
  have h3 : splitDots (natDigits v.patch) = [natDigits v.patch] :=
    splitDots_noDot _ fun c hc => (natDigits_all_digits _ c hc).2
  have h2 : splitDots ('.' :: natDigits v.patch) = [] :: [natDigits v.patch] :=
    by rw [splitDots_dot_cons, h3]
  have h2b : splitDots (natDigits v.minor ++ '.' :: natDigits v.patch) =
      (natDigits v.minor ++ []) :: [natDigits v.patch] :=
    splitDots_append _ _ _ _ (fun c hc => (natDigits_all_digits _ c hc).2) h2
  have h1 : splitDots ('.' :: (natDigits v.minor ++ '.' :: natDigits v.patch)) =
      [] :: ((natDigits v.minor ++ []) :: [natDigits v.patch]) := by
    rw [splitDots_dot_cons, h2b]
  have h0 : splitDots (natDigits v.major ++
      ('.' :: (natDigits v.minor ++ '.' :: natDigits v.patch))) =
      (natDigits v.major ++ []) :: ((natDigits v.minor ++ []) :: [natDigits v.patch]) :=
    splitDots_append (natDigits v.major)
      ('.' :: (natDigits v.minor ++ '.' :: natDigits v.patch)) _ _
      (fun c hc => (natDigits_all_digits v.major c hc).2) h1
  simpa using h0

/-- Print-then-parse roundtrip: the canonical rendering of a version parses
back to it (`Version(str(v)) == v`). -/
theorem parseVer_verToString (v : Ver) : parseVer (verToString v) = some v := by
  unfold parseVer
  rw [splitDots_verToString]
  dsimp only
  rw [strictComp_natDigits, strictComp_natDigits, strictComp_natDigits]

/-- The canonical rendering matches the `X.Y.Z` regex. -/
theorem is_version_verToString (v : Ver) : is_version (verToString v) = true := by
  unfold is_version
  rw [splitDots_verToString]
  dsimp only
  have h : ∀ n : Nat, (!(natDigits n).isEmpty && (natDigits n).all isDigitCh) = true := by
    intro n
    have h1 : (natDigits n).isEmpty = false := by
      rcases hd : natDigits n with _ | ⟨c, rest⟩
      · exact absurd hd (natDigits_ne_nil n)
      · rfl
    have h2 : (natDigits n).all isDigitCh = true :=
      List.all_eq_true.mpr fun x hx => (natDigits_all_digits n x hx).1
    rw [h1, h2]; rfl
  rw [h, h, h]
  rfl

/-- A successful strict parse implies the regex matches. -/
theorem strictComp_digits (cs : List Char) (n : Nat) (h : strictComp cs = some n) :
    (!cs.isEmpty && cs.all isDigitCh) = true := by
  rcases cs with _ | ⟨c0, rest0⟩
  · exact absurd h (by simp [strictComp])
  · rw [strictComp] at h
    by_cases hcond : (isDigitCh c0 && rest0.all isDigitCh &&
        (c0 != '0' || rest0.isEmpty)) = true
    · have h1 : isDigitCh c0 = true := by
        have hc := hcond
        simp only [Bool.and_eq_true] at hc
        exact hc.1.1
      have h2 : rest0.all isDigitCh = true := by
        have hc := hcond
        simp only [Bool.and_eq_true] at hc
        exact hc.1.2
      simp [List.all_cons, h1, h2]
    · rw [if_neg hcond] at h
      exact absurd h (by simp)

/-- A successful strict parse implies the regex matches. -/
theorem is_version_of_parseVer (s : String) (v : Ver) (h : parseVer s = some v) :
    is_version s = true := by
  unfold parseVer at h
  unfold is_version
  rcases hs : splitDots s.data with _ | ⟨a, rest⟩ <;> rw [hs] at h
  · simp at h
  rcases rest with _ | ⟨b, rest2⟩
  · simp at h
  rcases rest2 with _ | ⟨c, rest3⟩
  · simp at h
  rcases rest3 with _ | ⟨d, rest4⟩
  · dsimp only at h
    rcases ha : strictComp a with _ | x <;> rw [ha] at h
    · simp at h
    rcases hb : strictComp b with _ | y <;> rw [hb] at h
    · simp at h
    rcases hc : strictComp c with _ | z <;> rw [hc] at h
    · simp at h
    dsimp only
    rw [strictComp_digits a x ha, strictComp_digits b y hb, strictComp_digits c z hc]
    rfl
  · simp at h

/-! ## Parse-then-print roundtrip: `str(Version(s)) == s` for every string
the strict constructor accepts (canonical strings are exactly the accepted
ones, so `find_latest_version` returns a member of its input verbatim). -/

theorem char_eq_of_toNat_eq (c d : Char) (h : c.toNat = d.toNat) : c = d := by
  rcases c with ⟨cv, hcv⟩
  rcases d with ⟨dv, hdv⟩
  simp only [Char.toNat] at h
  have : cv = dv := UInt32.ext h
  subst this
  rfl

theorem digitChar_inv (c : Char) (h : isDigitCh c = true) :
    digitChar (c.toNat - 48) = c := by
  have hb : 48 ≤ c.toNat ∧ c.toNat ≤ 57 := by
    simp only [isDigitCh, Bool.and_eq_true, decide_eq_true_eq] at h
    exact h
  have hk : c.toNat - 48 < 10 := by omega
  apply char_eq_of_toNat_eq
  rw [(digitChar_spec _ hk).1]
  omega

theorem charsToNatAux_pos (cs : List Char) : ∀ acc : Nat, 1 ≤ acc →
    1 ≤ charsToNatAux acc cs := by
  induction cs with
  | nil => intro acc h; exact h
  | cons c cs ih =>
    intro acc h
    exact ih _ (by omega)

theorem natDigits_charsToNat (cs : List Char) (hne : cs ≠ [])
    (hdig : ∀ c ∈ cs, isDigitCh c = true)
    (hlead : ∀ c rest, cs = c :: rest → rest ≠ [] → c ≠ '0') :
    natDigits (charsToNat cs) = cs := by
  induction cs using List.reverseRecOn with
  | nil => exact absurd rfl hne
  | append_singleton ds d ih =>
    have hd : isDigitCh d = true := hdig d (by simp)
    have hdb : 48 ≤ d.toNat ∧ d.toNat ≤ 57 := by
      simp only [isDigitCh, Bool.and_eq_true, decide_eq_true_eq] at hd
      exact hd
    rcases hds : ds with _ | ⟨c0, rest0⟩
    · show natDigits (charsToNat [d]) = [d]
      have hv : charsToNat [d] = d.toNat - 48 := by
        show 10 * 0 + (d.toNat - 48) = d.toNat - 48
        omega
      rw [hv, natDigits_eq, if_pos (by omega : d.toNat - 48 < 10), digitChar_inv d hd]
    · subst hds
      have hc0 : isDigitCh c0 = true := hdig c0 (by simp)
      have hc0b : 48 ≤ c0.toNat ∧ c0.toNat ≤ 57 := by
        simp only [isDigitCh, Bool.and_eq_true, decide_eq_true_eq] at hc0
        exact hc0
      have hc0z : c0 ≠ '0' := by
        refine hlead c0 (rest0 ++ [d]) rfl (by simp)
      have hc0v : 1 ≤ c0.toNat - 48 := by
        rcases Nat.lt_or_ge 48 c0.toNat with hlt | hge
        · omega
        · exfalso
          have : c0.toNat = 48 := by omega
          exact hc0z (char_eq_of_toNat_eq c0 '0' (by rw [this]; rfl))
      have hm : 1 ≤ charsToNat (c0 :: rest0) := by
        show 1 ≤ charsToNatAux (10 * 0 + (c0.toNat - 48)) rest0
        exact charsToNatAux_pos rest0 _ (by omega)
      have hsplit : charsToNat ((c0 :: rest0) ++ [d]) =
          10 * charsToNat (c0 :: rest0) + (d.toNat - 48) := by
        show charsToNatAux 0 ((c0 :: rest0) ++ [d]) = _
        rw [charsToNatAux_append]
        rfl
      rw [hsplit, natDigits_eq, if_neg (by omega)]
      have hq : (10 * charsToNat (c0 :: rest0) + (d.toNat - 48)) / 10 =
          charsToNat (c0 :: rest0) := by omega
      have hr : (10 * charsToNat (c0 :: rest0) + (d.toNat - 48)) % 10 =
          d.toNat - 48 := by omega
      rw [hq, hr, digitChar_inv d hd]
      rw [ih (by simp) (fun c hc => hdig c (by
          rcases List.mem_cons.mp hc with rfl | h'
          · exact List.mem_cons_self _ _
          · exact List.mem_cons_of_mem _ (List.mem_append_left _ h')))
        (fun c rest heq hrne => by
          refine hlead c (rest ++ [d]) ?_ (by simp)
          rw [heq]
          rfl)]

theorem natDigits_strictComp (cs : List Char) (n : Nat)
    (h : strictComp cs = some n) : natDigits n = cs := by
  rcases cs with _ | ⟨c, rest⟩
  · exact absurd h (by simp [strictComp])
  rw [strictComp] at h
  by_cases hcond : (isDigitCh c && rest.all isDigitCh &&
      (c != '0' || rest.isEmpty)) = true
  · rw [if_pos hcond] at h
    have hn : charsToNat (c :: rest) = n := by
      injection h
    subst hn
    simp only [Bool.and_eq_true, Bool.or_eq_true] at hcond
    apply natDigits_charsToNat
    · simp
    · intro x hx
      rcases List.mem_cons.mp hx with rfl | hx'
      · exact hcond.1.1
      · exact List.all_eq_true.mp hcond.1.2 x hx'
    · intro c0 rest0 heq hrne
      injection heq with h1 h2
      subst h1
      subst h2
      rcases hcond.2 with hne | hemp
      · exact bne_iff_ne.mp hne
      · exact absurd (List.isEmpty_iff.mp hemp) hrne
  · rw [if_neg hcond] at h
    exact absurd h (by simp)

def joinDots : List (List Char) → List Char
  | [] => []
  | [g] => g
  | g :: gs => g ++ '.' :: joinDots gs

theorem splitDots_join (cs : List Char) :
    joinDots (splitDots cs) = cs ∧
      ∀ g ∈ splitDots cs, ∀ x ∈ g, x ≠ '.' := by
  induction cs with
  | nil => exact ⟨rfl, by simp [splitDots]⟩
  | cons c0 cs ih =>
    by_cases hdot : c0 = '.'
    · subst hdot
      rw [splitDots_dot_cons]
      rcases hs : splitDots cs with _ | ⟨g, gs⟩
      · exact absurd hs (splitDots_ne_nil cs)
      constructor
      · show '.' :: joinDots (g :: gs) = '.' :: cs
        rw [← hs, ih.1]
      · intro g' hg' x hx
        rcases List.mem_cons.mp hg' with rfl | hg''
        · exact absurd hx (List.not_mem_nil x)
        · exact ih.2 g' (hs ▸ hg'') x hx
    · rw [splitDots, if_neg hdot]
      rcases hs : splitDots cs with _ | ⟨g, gs⟩
      · exact absurd hs (splitDots_ne_nil cs)
      constructor
      · rcases gs with _ | ⟨g2, gs2⟩
        · show c0 :: g = c0 :: cs
          have := ih.1
          rw [hs] at this
          show c0 :: joinDots [g] = c0 :: cs
          rw [this]
        · show (c0 :: g) ++ '.' :: joinDots (g2 :: gs2) = c0 :: cs
          have := ih.1
          rw [hs] at this
          show c0 :: (g ++ '.' :: joinDots (g2 :: gs2)) = c0 :: cs
          rw [show g ++ '.' :: joinDots (g2 :: gs2) = joinDots (g :: g2 :: gs2) from rfl]
          rw [this]
      · intro g' hg' x hx
        rcases List.mem_cons.mp hg' with rfl | hg''
        · rcases List.mem_cons.mp hx with rfl | hx'
          · exact hdot
          · exact ih.2 g (hs ▸ List.mem_cons_self _ _) x hx'
        · exact ih.2 g' (hs ▸ List.mem_cons_of_mem _ hg'') x hx

theorem splitDots_three (cs a b c : List Char) (h : splitDots cs = [a, b, c]) :
    cs = a ++ '.' :: (b ++ '.' :: c) := by
  have hj := (splitDots_join cs).1
  rw [h] at hj
  rw [← hj]
  rfl

theorem verToString_parseVer (s : String) (v : Ver) (h : parseVer s = some v) :
    verToString v = s := by
  unfold parseVer at h
  rcases hs : splitDots s.data with _ | ⟨a, rest⟩ <;> rw [hs] at h
  · simp at h
  rcases rest with _ | ⟨b, rest2⟩
  · simp at h
  rcases rest2 with _ | ⟨c, rest3⟩
  · simp at h
  rcases rest3 with _ | ⟨d, rest4⟩
  · dsimp only at h
    rcases ha : strictComp a with _ | x <;> rw [ha] at h
    · simp at h
    rcases hb : strictComp b with _ | y <;> rw [hb] at h
    · simp at h
    rcases hc : strictComp c with _ | z <;> rw [hc] at h
    · simp at h
    have hv : v = ⟨x, y, z⟩ := by
      injection h with h'
      exact h'.symm
    subst hv
    show (⟨natDigits x ++ '.' :: natDigits y ++ '.' :: natDigits z⟩ : String) = s
    rw [natDigits_strictComp a x ha, natDigits_strictComp b y hb,
      natDigits_strictComp c z hc]
    have hdata : a ++ '.' :: b ++ '.' :: c = s.data := by
      rw [splitDots_three s.data a b c hs, List.append_assoc]
      rfl
    rw [hdata]
  · simp at h


/-- `str.lower()` on the ASCII `os` strings this pipeline produces
(`'iOS'`, `'Android'`, ...). (`String.toLower` itself is not used because its
implementation does not reduce in the kernel.) -/
def lowerChar (c : Char) : Char :=
  if 65 ≤ c.toNat && c.toNat ≤ 90 then Char.ofNat (c.toNat + 32) else c

def lowerStr (s : String) : String := ⟨s.data.map lowerChar⟩

/-! ## Record model (src/server/db/tables.py, §3 of the spec).
Fields never read by the rule engine are omitted from the row structures. -/

/-- A Google Ads (`collector_gads`) row: `GadsTable`. -/
structure GadsRow where
  app_id : String
  property_id : Nat
  event_name : String
  uid : String
deriving DecidableEq, Repr

/-- A GA4 (`collector_ga4`) row: `Ga4Table`. `date_added` is a day index. -/
structure Ga4Row where
  property_id : Nat
  os : String
  app_version : String
  event_name : String
  event_count : Nat
  uid : String
  date_added : Int
deriving DecidableEq, Repr

/-- A GA4 row with the `app_id` column merged in from Google Ads
(the result of `add_app_ids`). -/
structure ConvRow where
  os : String
  app_version : String
  event_name : String
  uid : String
  date_added : Int
  app_id : String
deriving DecidableEq, Repr

/-- An App Store / Play Store collector row. The Play Store `track` column
is never read by the rules and is omitted; `version` carries a semantic
version (App Store) or a numeric version code (Play Store), both as strings.
`timestamp` is an hour count. -/
structure StoreRow where
  app_id : String
  version : String
  timestamp : Int
deriving DecidableEq, Repr

/-- `collectors_data` of `VersionEventsRule.check_rule`: one entry per source,
`none` when `get_values_from_table` returned `None`. -/
structure CollectorsData where
  app_store : Option (List StoreRow)
  ga4 : Option (List Ga4Row)
  gads : Option (List GadsRow)
  play_store : Option (List StoreRow)

/-- `stores_latest_versions` in `VersionEventsRule.check_rule`. -/
structure StoresLatest where
  app_store : Option (List StoreRow)
  play_store : Option (List StoreRow)

/-- `VersionEventsEvent` (version_events.py:30-44). -/
structure VersionEventsEvent where
  event_name : String
  app_id : String
  cur_ver : String
  prev_ver : String
deriving DecidableEq, Repr

/-- `IntervalEvent` (interval.py:28-43). -/
structure IntervalEvent where
  event_name : String
  app_id : String
  interval : Nat
deriving DecidableEq, Repr

/-- `Alert` (alerts.py:20-38). `trigger_value` is a key/value list (Python
dict; the one integer value, `interval`, is rendered with `str`).
`timestamp` has its Python dataclass default: `datetime.datetime.now()` is
evaluated once, when the class body is executed, so every `Alert` built
without an explicit `timestamp` receives the same process-wide constant;
`create_alerts` below takes that constant as the `alertClassTime` argument. -/
structure Alert where
  app_id : String
  rule_name : String
  trigger : String
  trigger_value : List (String × String)
  alert_id : String
  timestamp : Int
deriving DecidableEq, Repr

/-! ## Uid correlation (shared by both rules; interval.py:173-212,
version_events.py:205-244: the two Python copies are textually identical). -/

/-- `get_uids`: uids of the rows whose `app_id` is monitored, deduplicated
(`list(set(...))`). -/
def get_uids (app_ids : List String) (df : List GadsRow) : List String :=
  uniqueFirst ((df.filter fun r => app_ids.contains r.app_id).map fun r => r.uid)

/-- `filter_by_uids` / `filter_for_uids`: keep rows with `uid ∈ uids`. -/
def filter_by_uids (uids : List String) (df : List Ga4Row) : List Ga4Row :=
  df.filter fun r => uids.contains r.uid

/-- `add_app_ids`: `pd.merge(ga4_df, gads_df[['app_id','uid']], on='uid')` —
inner equi-join; each GA4 row is replicated once per matching Ads row, in
left-then-right row order. -/
def add_app_ids (gads_df : List GadsRow) (ga4_df : List Ga4Row) : List ConvRow :=
  ga4_df.flatMap fun g =>
    (gads_df.filter fun a => a.uid == g.uid).map fun a =>
      { os := g.os, app_version := g.app_version, event_name := g.event_name,
        uid := g.uid, date_added := g.date_added, app_id := a.app_id }

namespace VersionEventsRule

/-- `get_versions` (version_events.py:246-255): distinct `app_version`s. -/
def get_versions (df : List ConvRow) : List String :=
  uniqueFirst (df.map fun r => r.app_version)

/-- One step of `[Version(v) for v in versions if is_version(v)]`:
`ok` on success, the `ValueError` otherwise. -/
def parseStep (v : String) : Except String Ver :=
  match parseVer v with
  | some u => .ok u
  | none => .error ("ValueError: " ++ v)

/-- A list comprehension whose element expression can raise: the first
exception propagates. -/
def mapExcept (f : α → Except String β) : List α → Except String (List β)
  | [] => .ok []
  | x :: xs =>
    match f x with
    | .error e => .error e
    | .ok y =>
      match mapExcept f xs with
      | .error e => .error e
      | .ok ys => .ok (y :: ys)

/-- `find_latest_version` (version_events.py:269-281):
`SimpleSpec('>0.0.0').select([Version(v) for v in versions if is_version(v)])`,
rendered with `str` — note `str(None) = "None"` when nothing matches, and
that `0.0.0` itself does not satisfy `>0.0.0`. A valid-looking component
with a leading zero makes `Version(v)` raise `ValueError`. -/
def find_latest_version (versions : List String) : Except String String :=
  match mapExcept parseStep (versions.filter is_version) with
  | .error e => .error e
  | .ok valid_versions =>
    match selectMax (valid_versions.filter fun u => verLt ⟨0, 0, 0⟩ u) with
    | some m => .ok (verToString m)
    | none => .ok "None"

/-- `find_previous_version` (version_events.py:283-296):
`SimpleSpec(f'<{cur_ver}').select(...)`. Constructing the spec raises
`ValueError` when `cur_ver` is not a version expression (e.g. `'None'`). -/
def find_previous_version (cur_ver : String) (versions : List String) :
    Except String String :=
  match parseVer cur_ver with
  | none => .error ("ValueError: invalid SimpleSpec <" ++ cur_ver)
  | some c =>
    match mapExcept parseStep (versions.filter is_version) with
    | .error e => .error e
    | .ok valid_versions =>
      match selectMax (valid_versions.filter fun u => verLt u c) with
      | some m => .ok (verToString m)
      | none => .ok "None"

/-- `get_events_for_version` (version_events.py:328-340): distinct
`event_name`s of the rows with this `app_version`. -/
def get_events_for_version (version : String) (df : List ConvRow) : List String :=
  uniqueFirst ((df.filter fun r => r.app_version == version).map fun r => r.event_name)

/-- `compare_events_between_versions` (version_events.py:298-326). The Python
`list(set(prev).difference(set(cur)))` iterates a set in unspecified order;
the model fixes first-occurrence order. `df['app_id'].unique().tolist()[0]`
raises `IndexError` on an empty frame. -/
def compare_events_between_versions (cur_ver prev_ver : String)
    (df : List ConvRow) : Except String (List VersionEventsEvent) :=
  let cur_ver_events := get_events_for_version cur_ver df
  let prev_ver_events := get_events_for_version prev_ver df
  match uniqueFirst (df.map fun r => r.app_id) with
  | [] => .error "IndexError: list index out of range"
  | app_id :: _ =>
    .ok ((prev_ver_events.filter fun e => !cur_ver_events.contains e).map
      fun e => ⟨e, app_id, cur_ver, prev_ver⟩)

/-- First row attaining the maximal `timestamp` (`groupby(...).idxmax`). -/
def maxByTimestamp : List StoreRow → Option StoreRow
  | [] => none
  | r :: rs =>
    match maxByTimestamp rs with
    | none => some r
    | some m => some (if r.timestamp < m.timestamp then m else r)

/-- `get_latest_versions_of_apps` (version_events.py:342-359): keep rows with
`timestamp >= time_period`, then one row per `app_id` — the first row with
the maximal timestamp. (pandas sorts the groups by `app_id`; the model keeps
first-appearance order, which no caller observes: the result is only filtered
by `app_id` and tested for emptiness.) -/
def get_latest_versions_of_apps (apps_data : List StoreRow) (time_period : Int) :
    List StoreRow :=
  let apps_recent := apps_data.filter fun r => time_period ≤ r.timestamp
  (uniqueFirst (apps_recent.map fun r => r.app_id)).filterMap fun a =>
    maxByTimestamp (apps_recent.filter fun r => r.app_id == a)

/-- `get_conversion_events` (version_events.py:361-379). -/
def get_conversion_events (app_ids : List String) (gads : List GadsRow)
    (ga4 : List Ga4Row) : List ConvRow :=
  add_app_ids gads (filter_by_uids (get_uids app_ids gads) ga4)

/-- `get_missing_events_app_store` (version_events.py:381-405).
`store_cur_ver.loc[0, 'version']` on the per-app filter raises `KeyError`
when the store frame has no row for `app_id`; `Version(...)` raises
`ValueError` on non-semver strings. Emits one `first_open` violation iff
`Version(store) > Version(cur_ver)` — no time condition. -/
def get_missing_events_app_store (store : List StoreRow) (app_id cur_ver : String) :
    Except String (List VersionEventsEvent) :=
  match store.filter fun r => r.app_id == app_id with
  | [] => .error "KeyError: 0"
  | r :: _ =>
    match parseVer r.version with
    | none => .error ("ValueError: " ++ r.version)
    | some store_ver =>
      match parseVer cur_ver with
      | none => .error ("ValueError: " ++ cur_ver)
      | some cv =>
        if verLt cv store_ver then
          .ok [⟨"first_open", app_id, r.version, cur_ver⟩]
        else .ok []

/-- Earliest `date_added` (`pd.to_datetime(...).min()`; `none` models `NaT`
on an empty series, and every comparison against `NaT` is `False`). -/
def minDate : List Int → Option Int
  | [] => none
  | d :: ds =>
    match minDate ds with
    | none => some d
    | some m => some (min d m)

/-- `get_missing_events_play_store` (version_events.py:407-441). Emits one
`first_open` violation iff `store_timestamp - 24h` is later than the earliest
GA4 observation of `cur_ver` (a date, hence `24 *` the day index). -/
def get_missing_events_play_store (store : List StoreRow) (app_id cur_ver : String)
    (app_conversion_events : List ConvRow) :
    Except String (List VersionEventsEvent) :=
  match store.filter fun r => r.app_id == app_id with
  | [] => .error "KeyError: 0"
  | r :: _ =>
    let cur_ver_data := app_conversion_events.filter fun x => x.app_version == cur_ver
    match minDate (cur_ver_data.map fun x => x.date_added) with
    | none => .ok []
    | some earliest =>
      if r.timestamp - 24 > 24 * earliest then
        .ok [⟨"first_open", app_id, r.version, cur_ver⟩]
      else .ok []

/-- `get_missing_events_ga4` (version_events.py:443-458). -/
def get_missing_events_ga4 (versions : List String) (cur_ver : String)
    (app_conversion_events : List ConvRow) :
    Except String (List VersionEventsEvent) :=
  match find_previous_version cur_ver versions with
  | .error e => .error e
  | .ok prev_ver =>
    compare_events_between_versions cur_ver prev_ver app_conversion_events

/-- `get_app_missing_events` (version_events.py:460-494). When the store
frame matching the app's platform is present and non-empty the store check's
result is returned directly; the generic GA4 diff runs only otherwise. -/
def get_app_missing_events (app_id : String) (conversion_events : List ConvRow)
    (stores_latest_versions : StoresLatest) :
    Except String (List VersionEventsEvent) :=
  let app_conversion_events := conversion_events.filter fun r => r.app_id == app_id
  let versions := get_versions app_conversion_events
  match find_latest_version versions with
  | .error e => .error e
  | .ok cur_ver =>
    match app_conversion_events with
    | [] => .error "IndexError: single positional indexer is out-of-bounds"
    | r :: _ =>
      let os := lowerStr r.os
      let store_type := if os == "ios" then "app_store" else "play_store"
      let store := if store_type == "app_store" then
        stores_latest_versions.app_store else stores_latest_versions.play_store
      match store with
      | some s =>
        if s.isEmpty then
          get_missing_events_ga4 versions cur_ver app_conversion_events
        else if store_type == "app_store" then
          get_missing_events_app_store s app_id cur_ver
        else
          get_missing_events_play_store s app_id cur_ver app_conversion_events
      | none => get_missing_events_ga4 versions cur_ver app_conversion_events

/-- The `for app_id in app_ids_list` loop of `check_rule`
(version_events.py:167-171): violations are concatenated per app, and an
exception from any app propagates (no per-app handler). -/
def runApps (conversion_events : List ConvRow)
    (stores_latest_versions : StoresLatest) :
    List String → Except String (List VersionEventsEvent)
  | [] => .ok []
  | a :: rest =>
    match get_app_missing_events a conversion_events stores_latest_versions with
    | .error e => .error e
    | .ok missing =>
      match runApps conversion_events stores_latest_versions rest with
      | .error e => .error e
      | .ok tail => .ok (missing ++ tail)

/-- `VersionEventsRule.check_rule` (version_events.py:105-173). `now` is the
value of `datetime.datetime.now()` read inside the function, in hours;
`time_period = now - 7 days`. -/
def check_rule (app_ids : List String) (collectors_data : CollectorsData)
    (now : Int) : Except String (List VersionEventsEvent) :=
  match collectors_data.ga4, collectors_data.gads with
  | none, _ => .ok []
  | some _, none => .ok []
  | some ga4, some gads =>
    let time_period := now - 7 * 24
    let stores_latest_versions : StoresLatest :=
      { app_store := collectors_data.app_store.map
          fun df => get_latest_versions_of_apps df time_period,
        play_store := collectors_data.play_store.map
          fun df => get_latest_versions_of_apps df time_period }
    let conversion_events := get_conversion_events app_ids gads ga4
    let app_ids_list := uniqueFirst (conversion_events.map fun r => r.app_id)
    runApps conversion_events stores_latest_versions app_ids_list

/-- `VersionEventsRule.create_alerts` (version_events.py:175-203).
`alertClassTime` is the process-wide default timestamp of `Alert`
(see `Alert`). -/
def create_alerts (alertClassTime : Int) (data : List VersionEventsEvent) :
    List Alert :=
  data.map fun event =>
    { app_id := event.app_id,
      rule_name := "VersionEventsRule",
      trigger := "Missing event between versions",
      trigger_value := [("Event Name", event.event_name),
        ("Missing from Version", event.cur_ver),
        ("Previous Version", event.prev_ver)],
      alert_id := "VersionEventsRule_" ++ event.app_id ++ "_" ++
        event.event_name ++ "_" ++ event.cur_ver ++ "_" ++ event.prev_ver,
      timestamp := alertClassTime }

end VersionEventsRule

namespace IntervalEventsRule

/-- The two tables `IntervalEventsRule.get_data` fetches. -/
structure IntervalData where
  gads : Option (List GadsRow)
  ga4 : Option (List Ga4Row)

/-- `IntervalEventsRule.check_rule` (interval.py:96-144). `today` is the
value of `datetime.date.today()` read inside the function (a day index);
`yesterday = today - 1` and the filter keeps `date_added >= yesterday`.
The rule's `interval` attribute is the constant 24 (interval.py:74). -/
def check_rule (app_ids : List String) (collectors_data : IntervalData)
    (today : Int) : List IntervalEvent :=
  match collectors_data.ga4, collectors_data.gads with
  | none, _ => []
  | some _, none => []
  | some ga4_data, some gads_data =>
    let yesterday := today - 1
    let gads_uids := get_uids app_ids gads_data
    let ga4_f := filter_by_uids gads_uids ga4_data
    let ga4_recent := ga4_f.filter fun r => yesterday ≤ r.date_added
    let merged := add_app_ids gads_data ga4_recent
    let ga4_uids := uniqueFirst (merged.map fun r => r.uid)
    let rows := gads_data.filter fun r => !ga4_uids.contains r.uid
    (rows.filter fun r => app_ids.contains r.app_id).map
      fun r => ⟨r.event_name, r.app_id, 24⟩

/-- `IntervalEventsRule.create_alerts` (interval.py:146-171). -/
def create_alerts (alertClassTime : Int) (rule_violations : List IntervalEvent) :
    List Alert :=
  rule_violations.map fun event =>
    { app_id := event.app_id,
      rule_name := "IntervalEventsRule",
      trigger := "Missing event for interval",
      trigger_value := [("Event Name", event.event_name),
        ("Missing for", toString event.interval)],
      alert_id := "IntervalEventsRule_" ++ event.app_id ++ "_" ++
        event.event_name ++ "_" ++ toString event.interval,
      timestamp := alertClassTime }

end IntervalEventsRule

/-! ## The storage fetch (src/server/db/bq.py:70-111). -/

/-- What BigQuery holds for one table: either the table is missing
(`exceptions.NotFound`) or it exists and yields a list of rows. -/
inductive TableFetch (α : Type)
  | notFound
  | rows (xs : List α)
deriving DecidableEq

/-- `BigQuery.get_values_from_table` (bq.py:100-109): returns the DataFrame
only when `result.total_rows` is truthy; an existing table with zero rows
yields `None`, exactly like a missing table. -/
def get_values_from_table {α : Type} : TableFetch α → Option (List α)
  | .notFound => none
  | .rows xs => if xs.isEmpty then none else some xs

/-- `IntervalEventsRule.get_data` (interval.py:84-94). -/
def IntervalEventsRule.get_data (gads_t : TableFetch GadsRow)
    (ga4_t : TableFetch Ga4Row) : IntervalEventsRule.IntervalData :=
  { gads := get_values_from_table gads_t, ga4 := get_values_from_table ga4_t }

/-! ## The orchestrator (src/server/orchestrator.py:78-148). -/

/-- The effectful steps `orchestrator()` runs in order: one entry per
collector (`collector.collect()/process()/save()`), one per rule
(`rule_obj.run()`), one per app (`handle_alerts`); each is a label together
with its outcome — `.ok` or a raised exception. -/
structure OrchWorld where
  collectors : List (String × Except String Unit)
  rules : List (String × Except String Unit)
  apps : List (String × Except String Unit)

inductive OrchOutcome
  | success
  | configFailure
  | uncaught (e : String)
deriving DecidableEq, Repr

/-- Run steps in order with no per-step handler: a raised exception ends the
run. Returns the labels of the steps that started, and the first error. -/
def runSteps : List (String × Except String Unit) → List String × Option String
  | [] => ([], none)
  | (n, r) :: rest =>
    match r with
    | .ok _ => let (ex, err) := runSteps rest; (n :: ex, err)
    | .error e => ([n], some e)

/-- `orchestrator` (orchestrator.py:78-148). Only config loading/validation
and BigQuery client creation sit inside `try/except` (returning `False`);
the collector loop, the rule loop and the per-app `handle_alerts` loop have
no failure boundary, so the first exception aborts everything after it. -/
def orchestrator (configOk bqOk : Bool) (w : OrchWorld) :
    OrchOutcome × List String :=
  if !configOk then (.configFailure, [])
  else if !bqOk then (.configFailure, [])
  else
    let (executed, err) := runSteps (w.collectors ++ w.rules ++ w.apps)
    match err with
    | some e => (.uncaught e, executed)
    | none => (.success, executed)


/-! ## Helper lemmas about the embedded operations. -/

theorem contains_iff_mem [BEq α] [LawfulBEq α] (l : List α) (a : α) :
    l.contains a = true ↔ a ∈ l := List.elem_iff

theorem mem_add_app_ids (gads_df : List GadsRow) (ga4_df : List Ga4Row)
    (v : ConvRow) :
    v ∈ add_app_ids gads_df ga4_df ↔ ∃ g ∈ ga4_df, ∃ ad ∈ gads_df,
      ad.uid = g.uid ∧ v = ⟨g.os, g.app_version, g.event_name, g.uid,
        g.date_added, ad.app_id⟩ := by
  simp only [add_app_ids, List.mem_flatMap, List.mem_map, List.mem_filter,
    beq_iff_eq]
  constructor
  · rintro ⟨g, hg, ad, ⟨had, huid⟩, rfl⟩
    exact ⟨g, hg, ad, had, huid, rfl⟩
  · rintro ⟨g, hg, ad, had, huid, rfl⟩
    exact ⟨g, hg, ad, ⟨had, huid⟩, rfl⟩

theorem selectMax_exists (l : List Ver) (h : l ≠ []) :
    ∃ m, selectMax l = some m := by
  cases hm : selectMax l with
  | none => exact absurd ((selectMax_eq_none l).mp hm) h
  | some m => exact ⟨m, rfl⟩

namespace VersionEventsRule

theorem parseStep_ok_iff (v : String) (u : Ver) :
    parseStep v = .ok u ↔ parseVer v = some u := by
  unfold parseStep
  cases parseVer v <;> simp

theorem mapExcept_ok_of_forall {β : Type} (f : String → Except String β) :
    ∀ l : List String, (∀ x ∈ l, ∃ y, f x = .ok y) →
    ∃ ys, mapExcept f l = .ok ys ∧
      (∀ y ∈ ys, ∃ x ∈ l, f x = .ok y) ∧ (∀ x ∈ l, ∃ y ∈ ys, f x = .ok y) := by
  intro l
  induction l with
  | nil => intro _; exact ⟨[], rfl, by simp, by simp⟩
  | cons x xs ih =>
    intro h
    obtain ⟨y, hy⟩ := h x (List.mem_cons_self _ _)
    obtain ⟨ys, hys, h1, h2⟩ := ih fun z hz => h z (List.mem_cons_of_mem _ hz)
    refine ⟨y :: ys, ?_, ?_, ?_⟩
    · rw [mapExcept, hy, hys]
    · intro w hw
      rcases List.mem_cons.mp hw with rfl | hw
      · exact ⟨x, List.mem_cons_self _ _, hy⟩
      · obtain ⟨z, hz, hfz⟩ := h1 w hw
        exact ⟨z, List.mem_cons_of_mem _ hz, hfz⟩
    · intro z hz
      rcases List.mem_cons.mp hz with rfl | hz
      · exact ⟨y, List.mem_cons_self _ _, hy⟩
      · obtain ⟨w, hw, hfw⟩ := h2 z hz
        exact ⟨w, List.mem_cons_of_mem _ hw, hfw⟩

/-- Specification of `find_latest_version` on inputs whose regex-valid
entries all parse (no leading zeros) and that contain a version above
`0.0.0`: the result is the canonical rendering of the semantic maximum. -/
theorem find_latest_spec (versions : List String)
    (hparse : ∀ v ∈ versions, is_version v = true → (parseVer v).isSome = true)
    (hpos : ∃ v ∈ versions, ∃ u, parseVer v = some u ∧ verLt ⟨0, 0, 0⟩ u = true) :
    ∃ m : Ver, find_latest_version versions = .ok (verToString m) ∧
      (∃ v ∈ versions, is_version v = true ∧ parseVer v = some m) ∧
      verLt ⟨0, 0, 0⟩ m = true ∧
      (∀ v ∈ versions, ∀ u, parseVer v = some u → verLe u m = true) := by
  have hstep : ∀ x ∈ versions.filter is_version, ∃ y, parseStep x = .ok y := by
    intro x hx
    have hx' := List.mem_filter.mp hx
    cases hpv : parseVer x with
    | none =>
      have hs := hparse x hx'.1 hx'.2
      rw [hpv] at hs
      simp at hs
    | some u => exact ⟨u, (parseStep_ok_iff x u).mpr hpv⟩
  obtain ⟨ys, hys, h1, h2⟩ := mapExcept_ok_of_forall parseStep _ hstep
  have hne : ys.filter (fun u => verLt ⟨0, 0, 0⟩ u) ≠ [] := by
    obtain ⟨v, hv, u, hu, hupos⟩ := hpos
    have hval : is_version v = true := is_version_of_parseVer v u hu
    obtain ⟨y, hy, hfy⟩ := h2 v (List.mem_filter.mpr ⟨hv, hval⟩)
    have : parseVer v = some y := (parseStep_ok_iff v y).mp hfy
    rw [hu] at this
    injection this with this
    subst this
    exact List.ne_nil_of_mem (List.mem_filter.mpr ⟨hy, hupos⟩)
  obtain ⟨m, hm⟩ := selectMax_exists _ hne
  have hmmem := List.mem_filter.mp (selectMax_mem _ m hm)
  refine ⟨m, ?_, ?_, hmmem.2, ?_⟩
  · unfold find_latest_version
    rw [hys]
    dsimp only
    rw [hm]
  · obtain ⟨x, hx, hfx⟩ := h1 m hmmem.1
    have hx' := List.mem_filter.mp hx
    exact ⟨x, hx'.1, hx'.2, (parseStep_ok_iff x m).mp hfx⟩
  · intro v hv u hu
    have hval : is_version v = true := is_version_of_parseVer v u hu
    obtain ⟨y, hy, hfy⟩ := h2 v (List.mem_filter.mpr ⟨hv, hval⟩)
    have heq : parseVer v = some y := (parseStep_ok_iff v y).mp hfy
    rw [hu] at heq
    injection heq with heq
    subst heq
    by_cases hpos' : verLt ⟨0, 0, 0⟩ u = true
    · exact selectMax_ge _ m hm u (List.mem_filter.mpr ⟨hy, hpos'⟩)
    · have hzero : u = ⟨0, 0, 0⟩ := by
        rcases u with ⟨u1, u2, u3⟩
        simp only [verLt, Bool.or_eq_true, Bool.and_eq_true, decide_eq_true_eq,
          beq_iff_eq] at hpos'
        simp only [Ver.mk.injEq]
        omega
      subst hzero
      exact (verLe_iff _ _).mpr (Or.inl hmmem.2)

/-- Specification of `find_previous_version` when `cur_ver` parses and the
regex-valid entries all parse: it never raises, and returns the canonical
rendering of the largest version strictly below `cur_ver` (the string
`"None"` when there is none). -/
theorem find_previous_spec (cur : String) (versions : List String) (c : Ver)
    (hc : parseVer cur = some c)
    (hparse : ∀ v ∈ versions, is_version v = true → (parseVer v).isSome = true) :
    (find_previous_version cur versions).isOk = true ∧
    ((∃ v ∈ versions, ∃ u, parseVer v = some u ∧ verLt u c = true) →
      ∃ m, find_previous_version cur versions = .ok (verToString m) ∧
        (∃ v ∈ versions, is_version v = true ∧ parseVer v = some m) ∧
        verLt m c = true ∧
        (∀ v ∈ versions, ∀ u, parseVer v = some u → verLt u c = true →
          verLe u m = true)) ∧
    ((¬ ∃ v ∈ versions, ∃ u, parseVer v = some u ∧ verLt u c = true) →
      find_previous_version cur versions = .ok "None") := by
  have hstep : ∀ x ∈ versions.filter is_version, ∃ y, parseStep x = .ok y := by
    intro x hx
    have hx' := List.mem_filter.mp hx
    cases hpv : parseVer x with
    | none =>
      have hs := hparse x hx'.1 hx'.2
      rw [hpv] at hs
      simp at hs
    | some u => exact ⟨u, (parseStep_ok_iff x u).mpr hpv⟩
  obtain ⟨ys, hys, h1, h2⟩ := mapExcept_ok_of_forall parseStep _ hstep
  have hbase : ∀ r, find_previous_version cur versions = r →
      r = (match selectMax (ys.filter fun u => verLt u c) with
        | some m => .ok (verToString m)
        | none => .ok "None") := by
    intro r hr
    unfold find_previous_version at hr
    rw [hc, hys] at hr
    exact hr.symm
  have hmain : find_previous_version cur versions =
      (match selectMax (ys.filter fun u => verLt u c) with
        | some m => .ok (verToString m)
        | none => .ok "None") := hbase _ rfl
  refine ⟨?_, ?_, ?_⟩
  · rw [hmain]
    cases selectMax (ys.filter fun u => verLt u c) <;> rfl
  · rintro ⟨v, hv, u, hu, hult⟩
    have hval : is_version v = true := is_version_of_parseVer v u hu
    obtain ⟨y, hy, hfy⟩ := h2 v (List.mem_filter.mpr ⟨hv, hval⟩)
    have heq : parseVer v = some y := (parseStep_ok_iff v y).mp hfy
    rw [hu] at heq
    injection heq with heq
    subst heq
    have hne : ys.filter (fun u => verLt u c) ≠ [] :=
      List.ne_nil_of_mem (List.mem_filter.mpr ⟨hy, hult⟩)
    obtain ⟨m, hm⟩ := selectMax_exists _ hne
    have hmmem := List.mem_filter.mp (selectMax_mem _ m hm)
    refine ⟨m, by rw [hmain, hm], ?_, hmmem.2, ?_⟩
    · obtain ⟨x, hx, hfx⟩ := h1 m hmmem.1
      have hx' := List.mem_filter.mp hx
      exact ⟨x, hx'.1, hx'.2, (parseStep_ok_iff x m).mp hfx⟩
    · intro w hw u' hu' hu'lt
      have hval' : is_version w = true := is_version_of_parseVer w u' hu'
      obtain ⟨y', hy', hfy'⟩ := h2 w (List.mem_filter.mpr ⟨hw, hval'⟩)
      have heq' : parseVer w = some y' := (parseStep_ok_iff w y').mp hfy'
      rw [hu'] at heq'
      injection heq' with heq'
      subst heq'
      exact selectMax_ge _ m hm u' (List.mem_filter.mpr ⟨hy', hu'lt⟩)
  · intro hno
    have hnil : ys.filter (fun u => verLt u c) = [] := by
      rcases hf : ys.filter (fun u => verLt u c) with _ | ⟨y, rest⟩
      · rfl
      · exfalso
        have hymem : y ∈ ys.filter (fun u => verLt u c) := hf ▸ List.mem_cons_self _ _
        have hy' := List.mem_filter.mp hymem
        obtain ⟨x, hx, hfx⟩ := h1 y hy'.1
        have hx' := List.mem_filter.mp hx
        exact hno ⟨x, hx'.1, y, (parseStep_ok_iff x y).mp hfx, hy'.2⟩
    rw [hmain, hnil]
    rfl

end VersionEventsRule


theorem isOk_error {α : Type} (e : String) :
    (Except.error e : Except String α).isOk = false := rfl

theorem isOk_ok {α : Type} (x : α) :
    (Except.ok x : Except String α).isOk = true := rfl

theorem mem_app_events (conv : List ConvRow) (a : String) (x : ConvRow) :
    x ∈ conv.filter (fun r => r.app_id == a) ↔ x ∈ conv ∧ x.app_id = a := by
  simp [List.mem_filter, beq_iff_eq]

namespace VersionEventsRule

/-- `get_app_missing_events` with no marketplace data runs the generic diff:
its value, given the versions the two version finders produced. -/
theorem get_app_missing_events_no_store_eq (conv : List ConvRow) (a : String)
    (r : ConvRow) (rest : List ConvRow) (cur prev : String)
    (hne : conv.filter (fun x => x.app_id == a) = r :: rest)
    (hfl : find_latest_version (get_versions (conv.filter fun x => x.app_id == a))
      = .ok cur)
    (hfp : find_previous_version cur
      (get_versions (conv.filter fun x => x.app_id == a)) = .ok prev) :
    get_app_missing_events a conv ⟨none, none⟩ =
      .ok (((get_events_for_version prev (conv.filter fun x => x.app_id == a)).filter
        (fun e => !(get_events_for_version cur
          (conv.filter fun x => x.app_id == a)).contains e)).map
        (fun e => ⟨e, a, cur, prev⟩)) := by
  unfold get_app_missing_events
  dsimp only
  rw [hfl]
  dsimp only
  rw [hne]
  dsimp only
  rw [ite_self]
  unfold get_missing_events_ga4
  rw [← hne, hfp]
  dsimp only
  unfold compare_events_between_versions
  have happ : uniqueFirst ((conv.filter fun x => x.app_id == a).map
      fun x => x.app_id) = [a] := by
    apply uniqueFirst_const
    · rw [hne]; simp
    · intro x hx
      obtain ⟨y, hy, rfl⟩ := List.mem_map.mp hx
      exact ((mem_app_events conv a y).mp hy).2
  rw [happ]

theorem runApps_eq (conv : List ConvRow) (stores : StoresLatest)
    (blk : String → List VersionEventsEvent) :
    ∀ l : List String,
    (∀ a ∈ l, get_app_missing_events a conv stores = .ok (blk a)) →
    runApps conv stores l = .ok (l.flatMap blk) := by
  intro l
  induction l with
  | nil => intro _; rfl
  | cons a rest ih =>
    intro h
    rw [runApps, h a (List.mem_cons_self _ _),
      ih fun b hb => h b (List.mem_cons_of_mem _ hb)]
    rfl

theorem runApps_isOk (conv : List ConvRow) (stores : StoresLatest) :
    ∀ l : List String,
    (∀ a ∈ l, (get_app_missing_events a conv stores).isOk = true) →
    (runApps conv stores l).isOk = true := by
  intro l
  induction l with
  | nil => intro _; rfl
  | cons a rest ih =>
    intro h
    rw [runApps]
    cases hh : get_app_missing_events a conv stores with
    | error e =>
      have hcontra := h a (List.mem_cons_self _ _)
      rw [hh, isOk_error] at hcontra
      exact Bool.noConfusion hcontra
    | ok missing =>
      have htail := ih fun b hb => h b (List.mem_cons_of_mem _ hb)
      cases ht : runApps conv stores rest with
      | error e =>
        rw [ht, isOk_error] at htail
        exact Bool.noConfusion htail
      | ok tail => rfl

theorem runApps_isOk_eq_false (conv : List ConvRow) (stores : StoresLatest) :
    ∀ (l : List String) (a : String), a ∈ l →
    (get_app_missing_events a conv stores).isOk = false →
    (runApps conv stores l).isOk = false := by
  intro l
  induction l with
  | nil => intro a ha; simp at ha
  | cons b rest ih =>
    intro a ha herr
    rw [runApps]
    cases hh : get_app_missing_events b conv stores with
    | error e => rfl
    | ok missing =>
      rcases List.mem_cons.mp ha with rfl | ha'
      · rw [hh, isOk_ok] at herr
        exact Bool.noConfusion herr
      · have hrest := ih a ha' herr
        cases ht : runApps conv stores rest with
        | error e => rfl
        | ok tail =>
          rw [ht, isOk_ok] at hrest
          exact Bool.noConfusion hrest

end VersionEventsRule

/-- Per-app blocks: filtering the concatenation by one app recovers that
app's block when blocks are keyed by distinct app ids. -/
theorem flatMap_filter_app (blk : String → List VersionEventsEvent) :
    ∀ (l : List String) (a : String), l.Nodup → a ∈ l →
    (∀ b ∈ l, ∀ v ∈ blk b, v.app_id = b) →
    (l.flatMap blk).filter (fun v => v.app_id == a) = blk a := by
  intro l
  induction l with
  | nil => intro a _ ha; simp at ha
  | cons b rest ih =>
    intro a hnd ha hall
    rw [List.flatMap_cons, List.filter_append]
    have hnd' := List.nodup_cons.mp hnd
    rcases List.mem_cons.mp ha with rfl | ha'
    · have h1 : (blk a).filter (fun v => v.app_id == a) = blk a := by
        apply List.filter_eq_self.mpr
        intro v hv
        exact beq_iff_eq.mpr (hall a (List.mem_cons_self _ _) v hv)
      have h2 : (rest.flatMap blk).filter (fun v => v.app_id == a) = [] := by
        apply List.filter_eq_nil_iff.mpr
        intro v hv
        obtain ⟨c, hc, hvc⟩ := List.mem_flatMap.mp hv
        have hvc' : v.app_id = c := hall c (List.mem_cons_of_mem _ hc) v hvc
        intro hbeq
        rw [beq_iff_eq] at hbeq
        refine hnd'.1 ?_
        rw [hbeq.symm.trans hvc']
        exact hc
      rw [h1, h2, List.append_nil]
    · have h1 : (blk b).filter (fun v => v.app_id == a) = [] := by
        apply List.filter_eq_nil_iff.mpr
        intro v hv
        have hvb : v.app_id = b := hall b (List.mem_cons_self _ _) v hv
        intro hbeq
        rw [beq_iff_eq] at hbeq
        refine hnd'.1 ?_
        rw [hvb.symm.trans hbeq]
        exact ha'
      rw [h1, List.nil_append]
      exact ih a hnd'.2 ha' fun c hc => hall c (List.mem_cons_of_mem _ hc)

/-! ## Orchestrator sequencing lemmas. -/

theorem runSteps_all_ok : ∀ l : List (String × Except String Unit),
    (∀ s ∈ l, s.2 = .ok ()) → runSteps l = (l.map fun s => s.1, none) := by
  intro l
  induction l with
  | nil => intro _; rfl
  | cons s rest ih =>
    intro h
    rcases s with ⟨n, r⟩
    have hr : r = .ok () := h (n, r) (List.mem_cons_self _ _)
    subst hr
    rw [runSteps, ih fun t ht => h t (List.mem_cons_of_mem _ ht)]
    rfl

theorem runSteps_first_error (n e : String)
    (post : List (String × Except String Unit)) :
    ∀ pre : List (String × Except String Unit), (∀ s ∈ pre, s.2 = .ok ()) →
    runSteps (pre ++ (n, .error e) :: post) = (pre.map (fun s => s.1) ++ [n], some e) := by
  intro pre
  induction pre with
  | nil => intro _; rfl
  | cons s rest ih =>
    intro h
    rcases s with ⟨m, r⟩
    have hr : r = .ok () := h (m, r) (List.mem_cons_self _ _)
    subst hr
    rw [List.cons_append, runSteps, ih fun t ht => h t (List.mem_cons_of_mem _ ht)]
    rfl


namespace VersionEventsRule

theorem mem_conv_version_from_ga4 (app_ids : List String) (gads : List GadsRow)
    (ga4 : List Ga4Row) (v : ConvRow)
    (h : v ∈ get_conversion_events app_ids gads ga4) :
    ∃ g ∈ ga4, v.app_version = g.app_version := by
  unfold get_conversion_events at h
  obtain ⟨g, hg, ad, _, _, rfl⟩ := (mem_add_app_ids _ _ v).mp h
  exact ⟨g, (List.mem_filter.mp hg).1, rfl⟩

/-- With no marketplace data, `get_app_missing_events` succeeds whenever the
app has at least one row, its regex-valid versions all parse strictly, and at
least one version exceeds `0.0.0`. -/
theorem get_app_missing_events_no_store_ok (conv : List ConvRow) (a : String)
    (hparse : ∀ r ∈ conv, is_version r.app_version = true →
      (parseVer r.app_version).isSome = true)
    (hpos : ∃ r ∈ conv, r.app_id = a ∧ ∃ u, parseVer r.app_version = some u ∧
      verLt ⟨0, 0, 0⟩ u = true) :
    (get_app_missing_events a conv ⟨none, none⟩).isOk = true := by
  have hparse' : ∀ v ∈ get_versions (conv.filter fun x => x.app_id == a),
      is_version v = true → (parseVer v).isSome = true := by
    intro v hv hval
    obtain ⟨x, hx, rfl⟩ := List.mem_map.mp
      ((mem_uniqueFirst _ _).mp hv)
    exact hparse x ((mem_app_events conv a x).mp hx).1 hval
  have hpos' : ∃ v ∈ get_versions (conv.filter fun x => x.app_id == a),
      ∃ u, parseVer v = some u ∧ verLt ⟨0, 0, 0⟩ u = true := by
    obtain ⟨r, hr, hra, u, hu, hupos⟩ := hpos
    refine ⟨r.app_version, ?_, u, hu, hupos⟩
    exact (mem_uniqueFirst _ _).mpr
      (List.mem_map.mpr ⟨r, (mem_app_events conv a r).mpr ⟨hr, hra⟩, rfl⟩)
  obtain ⟨m, hfl, _, _, _⟩ := find_latest_spec _ hparse' hpos'
  obtain ⟨r0, hr0, hr0a, _, _, _⟩ := hpos
  rcases hne : conv.filter (fun x => x.app_id == a) with _ | ⟨r, rest⟩
  · exfalso
    have : r0 ∈ conv.filter (fun x => x.app_id == a) :=
      (mem_app_events conv a r0).mpr ⟨hr0, hr0a⟩
    rw [hne] at this
    simp at this
  · have hfp := (find_previous_spec (verToString m)
      (get_versions (conv.filter fun x => x.app_id == a)) m
      (parseVer_verToString m) hparse').1
    cases hfpv : find_previous_version (verToString m)
        (get_versions (conv.filter fun x => x.app_id == a)) with
    | error e =>
      rw [hfpv, isOk_error] at hfp
      exact Bool.noConfusion hfp
    | ok prev =>
      rw [get_app_missing_events_no_store_eq conv a r rest (verToString m) prev
        hne hfl hfpv, isOk_ok]

end VersionEventsRule

/-! ## Claim C3. -/

/-- C3 (counterexample): an existing table with zero rows is fetched as
`none`, exactly like a missing table — the fetch step does not distinguish
"absent" from "no rows". -/
theorem fetch_empty_table_is_absent_cx :
    get_values_from_table (TableFetch.rows ([] : List GadsRow)) = none ∧
    get_values_from_table (TableFetch.notFound : TableFetch GadsRow) = none :=
  ⟨rfl, rfl⟩

/-- C3 (amended): `get_values_from_table` — and hence every entry of
`IntervalEventsRule.get_data` — is `none` iff the table is missing
(`NotFound`) or exists with zero rows; a non-empty table is returned as-is. -/
theorem fetch_none_iff_notFound_or_empty :
    (∀ (α : Type) (t : TableFetch α),
      get_values_from_table t = none ↔ t = .notFound ∨ t = .rows []) ∧
    (∀ (α : Type) (xs : List α), xs ≠ [] →
      get_values_from_table (TableFetch.rows xs) = some xs) ∧
    (∀ gads_t ga4_t, (IntervalEventsRule.get_data gads_t ga4_t).gads = none ↔
      gads_t = .notFound ∨ gads_t = .rows []) := by
  have hmain : ∀ (α : Type) (t : TableFetch α),
      get_values_from_table t = none ↔ t = .notFound ∨ t = .rows [] := by
    intro α t
    cases t with
    | notFound => simp [get_values_from_table]
    | rows xs =>
      cases xs with
      | nil => simp [get_values_from_table]
      | cons x xs => simp [get_values_from_table]
  refine ⟨hmain, ?_, ?_⟩
  · intro α xs hne
    cases xs with
    | nil => exact absurd rfl hne
    | cons x xs => simp [get_values_from_table]
  · intro gads_t ga4_t
    exact hmain _ gads_t

/-- Witness for the amended C3 statement at concrete tables. -/
theorem fetch_none_iff_notFound_or_empty_witness :
    (get_values_from_table (TableFetch.rows ([] : List GadsRow)) = none ↔
      (TableFetch.rows ([] : List GadsRow)) = .notFound ∨
        (TableFetch.rows ([] : List GadsRow)) = .rows []) ∧
    get_values_from_table
      (TableFetch.rows [(⟨"a", 1, "e", "u"⟩ : GadsRow)]) =
      some [⟨"a", 1, "e", "u"⟩] :=
  ⟨fetch_none_iff_notFound_or_empty.1 GadsRow (TableFetch.rows []),
   fetch_none_iff_notFound_or_empty.2.1 GadsRow [⟨"a", 1, "e", "u"⟩] (by simp)⟩

/-! ## Claim C4. -/

/-- C4 (counterexample): with a failing rule between an ok collector and
later steps, the orchestrator reports the uncaught exception and the later
rule and the per-app notification step never start. -/
theorem orchestrator_abort_cx :
    orchestrator true true
      ⟨[("collector_ga4", .ok ())],
       [("IntervalEventsRule", .error "boom"), ("VersionEventsRule", .ok ())],
       [("app1", .ok ())]⟩ =
      (.uncaught "boom", ["collector_ga4", "IntervalEventsRule"]) ∧
    "VersionEventsRule" ∉ ["collector_ga4", "IntervalEventsRule"] ∧
    "app1" ∉ ["collector_ga4", "IntervalEventsRule"] :=
  ⟨rfl, by decide, by decide⟩

/-- C4 (amended): `orchestrator()` guards only config validation and
BigQuery client creation; the collector, rule and per-app notification loops
have no per-step failure boundary, so the first exception ends the run — all
earlier steps ran, no later step does. When every step succeeds, all steps
run. -/
theorem orchestrator_no_per_step_boundary :
    (∀ (w : OrchWorld) (pre post : List (String × Except String Unit))
      (n e : String),
      w.collectors ++ w.rules ++ w.apps = pre ++ (n, .error e) :: post →
      (∀ s ∈ pre, s.2 = .ok ()) →
      orchestrator true true w = (.uncaught e, pre.map (fun s => s.1) ++ [n])) ∧
    (∀ w : OrchWorld, (∀ s ∈ w.collectors ++ w.rules ++ w.apps, s.2 = .ok ()) →
      orchestrator true true w =
        (.success, (w.collectors ++ w.rules ++ w.apps).map fun s => s.1)) := by
  constructor
  · intro w pre post n e hsplit hpre
    unfold orchestrator
    rw [hsplit, runSteps_first_error n e post pre hpre]
    rfl
  · intro w hok
    unfold orchestrator
    rw [runSteps_all_ok _ hok]
    rfl

/-- Witness for the amended C4 statement: a failing collector stops the rules
from running, and an all-ok world runs everything. -/
theorem orchestrator_no_per_step_boundary_witness :
    orchestrator true true
      ⟨[("collector_gads", .error "HttpError")],
       [("IntervalEventsRule", .ok ())], [("app1", .ok ())]⟩ =
      (.uncaught "HttpError", ["collector_gads"]) ∧
    orchestrator true true
      ⟨[("collector_gads", .ok ())], [("IntervalEventsRule", .ok ())], []⟩ =
      (.success, ["collector_gads", "IntervalEventsRule"]) :=
  ⟨orchestrator_no_per_step_boundary.1
      ⟨[("collector_gads", .error "HttpError")],
       [("IntervalEventsRule", .ok ())], [("app1", .ok ())]⟩
      [] [("IntervalEventsRule", .ok ()), ("app1", .ok ())]
      "collector_gads" "HttpError" rfl (by simp),
   orchestrator_no_per_step_boundary.2
      ⟨[("collector_gads", .ok ())], [("IntervalEventsRule", .ok ())], []⟩
      (by
        intro s hs
        simp only [List.append_nil, List.mem_append, List.mem_singleton] at hs
        rcases hs with rfl | rfl <;> rfl)⟩

/-! ## Claim C9. -/

/-- C9: the `Alert` dataclass default `timestamp = datetime.now()` is
evaluated once at class definition; every alert either rule's
`create_alerts` builds therefore carries that same constant — any two such
alerts have equal timestamps, regardless of when they are constructed. -/
theorem alerts_share_default_timestamp :
    ∀ (alertClassTime : Int) (vs : List IntervalEvent)
      (ws : List VersionEventsEvent) (a b : Alert),
      a ∈ IntervalEventsRule.create_alerts alertClassTime vs →
      b ∈ VersionEventsRule.create_alerts alertClassTime ws →
      a.timestamp = alertClassTime ∧ b.timestamp = alertClassTime ∧
        a.timestamp = b.timestamp := by
  intro t vs ws a b ha hb
  obtain ⟨v, _, rfl⟩ := List.mem_map.mp ha
  obtain ⟨w, _, rfl⟩ := List.mem_map.mp hb
  exact ⟨rfl, rfl, rfl⟩

/-- Witness for C9 at two concrete alerts. -/
theorem alerts_share_default_timestamp_witness :
    ∃ a ∈ IntervalEventsRule.create_alerts 7 [⟨"purchase", "com.x.y", 24⟩],
    ∃ b ∈ VersionEventsRule.create_alerts 7
      [⟨"purchase", "com.x.y", "1.1.0", "1.0.0"⟩],
    a.timestamp = 7 ∧ b.timestamp = 7 ∧ a.timestamp = b.timestamp := by
  refine ⟨_, List.mem_cons_self _ _, _, List.mem_cons_self _ _, ?_⟩
  exact alerts_share_default_timestamp 7 [⟨"purchase", "com.x.y", 24⟩]
    [⟨"purchase", "com.x.y", "1.1.0", "1.0.0"⟩] _ _
    (List.mem_cons_self _ _) (List.mem_cons_self _ _)


theorem filter_idem {α : Type} (p : α → Bool) (l : List α) :
    (l.filter p).filter p = l.filter p := by
  induction l with
  | nil => rfl
  | cons x xs ih =>
    by_cases h : p x = true
    · rw [List.filter_cons_of_pos h, List.filter_cons_of_pos h, ih]
    · rw [List.filter_cons_of_neg h, ih]

/-! ## Claim C5. -/

/-- C5 (counterexample): `['0.0.0']` has a non-empty set of valid entries
whose maximum is `0.0.0`, yet `find_latest_version` returns the string
`'None'` — the spec `>0.0.0` excludes `0.0.0` itself. -/
theorem find_latest_version_zero_cx :
    VersionEventsRule.find_latest_version ["0.0.0"] = .ok "None" ∧
    is_version "0.0.0" = true ∧ ("None" : String) ≠ "0.0.0" :=
  ⟨rfl, rfl, by decide⟩

/-- C5 (amended): when the valid entries parse strictly and one of them
exceeds `0.0.0`, `find_latest_version` returns the maximum valid entry
itself (the member `v` of the input list whose parse is the semantic
maximum `m`); `find_previous_version cur` returns the largest valid entry
strictly below `cur` when it exists and the string `'None'` otherwise; and
non-semver entries never affect either function. -/
theorem version_finders_spec :
    (∀ versions : List String,
      (∀ v ∈ versions, is_version v = true → (parseVer v).isSome = true) →
      (∃ v ∈ versions, ∃ u, parseVer v = some u ∧ verLt ⟨0, 0, 0⟩ u = true) →
      ∃ m : Ver, ∃ v ∈ versions, is_version v = true ∧ parseVer v = some m ∧
        VersionEventsRule.find_latest_version versions = .ok v ∧
        (∀ w ∈ versions, ∀ u, parseVer w = some u → verLe u m = true)) ∧
    (∀ (cur : String) (versions : List String) (c : Ver),
      parseVer cur = some c →
      (∀ v ∈ versions, is_version v = true → (parseVer v).isSome = true) →
      ((∃ v ∈ versions, ∃ u, parseVer v = some u ∧ verLt u c = true) →
        ∃ m : Ver, ∃ v ∈ versions, is_version v = true ∧ parseVer v = some m ∧
          VersionEventsRule.find_previous_version cur versions = .ok v ∧
          verLt m c = true ∧
          (∀ w ∈ versions, ∀ u, parseVer w = some u → verLt u c = true →
            verLe u m = true)) ∧
      ((¬ ∃ v ∈ versions, ∃ u, parseVer v = some u ∧ verLt u c = true) →
        VersionEventsRule.find_previous_version cur versions = .ok "None")) ∧
    (∀ versions : List String,
      VersionEventsRule.find_latest_version versions =
        VersionEventsRule.find_latest_version (versions.filter is_version) ∧
      ∀ cur : String,
        VersionEventsRule.find_previous_version cur versions =
          VersionEventsRule.find_previous_version cur
            (versions.filter is_version)) := by
  refine ⟨?_, ?_, ?_⟩
  · intro versions hparse hpos
    obtain ⟨m, h1, ⟨v, hv, hval, hpv⟩, _, h4⟩ :=
      VersionEventsRule.find_latest_spec versions hparse hpos
    refine ⟨m, v, hv, hval, hpv, ?_, h4⟩
    rw [h1, verToString_parseVer v m hpv]
  · intro cur versions c hc hparse
    obtain ⟨hok, hsome, hnone⟩ :=
      VersionEventsRule.find_previous_spec cur versions c hc hparse
    refine ⟨?_, hnone⟩
    intro hex
    obtain ⟨m, h1, ⟨v, hv, hval, hpv⟩, hlt, h4⟩ := hsome hex
    exact ⟨m, v, hv, hval, hpv,
      by rw [h1, verToString_parseVer v m hpv], hlt, h4⟩
  · intro versions
    constructor
    · unfold VersionEventsRule.find_latest_version
      rw [filter_idem]
    · intro cur
      unfold VersionEventsRule.find_previous_version
      rw [filter_idem]

/-- Witness for the amended C5 statement at a concrete list with a
non-semver entry. -/
theorem version_finders_spec_witness :
    (∃ m : Ver, ∃ v ∈ ["2.0.0", "1.5.0", "garbage"], is_version v = true ∧
      parseVer v = some m ∧
      VersionEventsRule.find_latest_version ["2.0.0", "1.5.0", "garbage"] =
        .ok v ∧
      (∀ w ∈ ["2.0.0", "1.5.0", "garbage"], ∀ u, parseVer w = some u →
        verLe u m = true)) ∧
    VersionEventsRule.find_latest_version ["2.0.0", "1.5.0", "garbage"] =
      .ok "2.0.0" ∧
    VersionEventsRule.find_previous_version "2.0.0" ["2.0.0", "1.5.0", "garbage"] =
      .ok "1.5.0" :=
  ⟨version_finders_spec.1 ["2.0.0", "1.5.0", "garbage"] (by decide)
    ⟨"2.0.0", by decide, ⟨2, 0, 0⟩, by decide, by decide⟩, rfl, rfl⟩

/-! ## Claim C1. -/

/-- C1 (code bug evaluation): marketplace data present for an iOS app, store
version `2.0.0` above the GA4 maximum `1.1.0`, and a release gap of only 10
hours (store timestamp 2410 vs hour 2400 = day 100, when the analytics
source first observed `1.1.0`): `check_rule` emits the `first_open`
violation anyway and performs no generic diff for the app — the 24-hour gap
is never consulted on the app-store path, and a store branch that emits
nothing never falls through to the generic diff, contrary to the spec and to
the docstring of `check_rule` itself. -/
theorem versionRule_app_store_gap_ignored :
    VersionEventsRule.check_rule ["555"]
      ⟨some [⟨"555", "2.0.0", 2410⟩],
       some [⟨777, "iOS", "1.0.0", "purchase", 1, "ios_777_purchase", 100⟩,
             ⟨777, "iOS", "1.0.0", "first_open", 1, "ios_777_first_open", 100⟩,
             ⟨777, "iOS", "1.1.0", "first_open", 1, "ios_777_first_open", 100⟩],
       some [⟨"555", 777, "purchase", "ios_777_purchase"⟩,
             ⟨"555", 777, "first_open", "ios_777_first_open"⟩],
       none⟩ 2450 =
      .ok [⟨"first_open", "555", "2.0.0", "1.1.0"⟩] ∧
    ((2410 : Int) - 24 * 100 ≤ 24) :=
  ⟨rfl, by norm_num⟩

/-! ## Claim C6. -/

/-- C6 (counterexample): when every observed version string for an app is
malformed, `check_rule` raises — `find_latest_version` yields the string
`'None'` and `SimpleSpec('<None')` raises `ValueError` — instead of merely
excluding the malformed strings. -/
theorem versionRule_all_malformed_raises_cx :
    VersionEventsRule.check_rule ["com.x.y"]
      ⟨none,
       some [⟨555, "Android", "beta", "purchase", 1, "android_555_purchase", 100⟩],
       some [⟨"com.x.y", 555, "purchase", "android_555_purchase"⟩],
       none⟩ 2450 =
      .error "ValueError: invalid SimpleSpec <None" ∧
    is_version "beta" = false :=
  ⟨rfl, rfl⟩

/-- C6 (amended): malformed version strings are excluded from ordering and
never raise by themselves — with no marketplace data, `check_rule` succeeds
whenever each monitored app retains at least one well-formed version above
`0.0.0` (and no regex-valid string has a leading zero); when an app has no
such version, `check_rule` raises. -/
theorem versionRule_malformed_excluded_when_valid_floor :
    ∀ (app_ids : List String) (ga4 : List Ga4Row) (gads : List GadsRow)
      (now : Int),
      (∀ g ∈ ga4, is_version g.app_version = true →
        (parseVer g.app_version).isSome = true) →
      (∀ a ∈ uniqueFirst ((VersionEventsRule.get_conversion_events
          app_ids gads ga4).map fun r => r.app_id),
        ∃ r ∈ VersionEventsRule.get_conversion_events app_ids gads ga4,
          r.app_id = a ∧ ∃ u, parseVer r.app_version = some u ∧
            verLt ⟨0, 0, 0⟩ u = true) →
      (VersionEventsRule.check_rule app_ids
        ⟨none, some ga4, some gads, none⟩ now).isOk = true := by
  intro app_ids ga4 gads now hga4 hpos
  have hcr : VersionEventsRule.check_rule app_ids
      ⟨none, some ga4, some gads, none⟩ now =
      VersionEventsRule.runApps
        (VersionEventsRule.get_conversion_events app_ids gads ga4) ⟨none, none⟩
        (uniqueFirst ((VersionEventsRule.get_conversion_events
          app_ids gads ga4).map fun r => r.app_id)) := rfl
  rw [hcr]
  apply VersionEventsRule.runApps_isOk
  intro a ha
  apply VersionEventsRule.get_app_missing_events_no_store_ok
  · intro r hr hval
    obtain ⟨g, hg, hgv⟩ :=
      VersionEventsRule.mem_conv_version_from_ga4 app_ids gads ga4 r hr
    rw [hgv] at hval ⊢
    exact hga4 g hg hval
  · exact hpos a ha

/-- Witness for the amended C6 statement: a malformed version string among
well-formed ones does not make `check_rule` raise. -/
theorem versionRule_malformed_excluded_witness :
    (VersionEventsRule.check_rule ["com.x.y"]
      ⟨none,
       some [⟨555, "Android", "build-7", "purchase", 1, "android_555_purchase", 99⟩,
             ⟨555, "Android", "1.0.0", "purchase", 1, "android_555_purchase", 100⟩,
             ⟨555, "Android", "1.1.0", "first_open", 1, "android_555_first_open", 101⟩],
       some [⟨"com.x.y", 555, "purchase", "android_555_purchase"⟩,
             ⟨"com.x.y", 555, "first_open", "android_555_first_open"⟩],
       none⟩ 2450).isOk = true := by
  apply versionRule_malformed_excluded_when_valid_floor
  · decide
  · intro a ha
    have hl : uniqueFirst ((VersionEventsRule.get_conversion_events ["com.x.y"]
        [⟨"com.x.y", 555, "purchase", "android_555_purchase"⟩,
         ⟨"com.x.y", 555, "first_open", "android_555_first_open"⟩]
        [⟨555, "Android", "build-7", "purchase", 1, "android_555_purchase", 99⟩,
         ⟨555, "Android", "1.0.0", "purchase", 1, "android_555_purchase", 100⟩,
         ⟨555, "Android", "1.1.0", "first_open", 1, "android_555_first_open", 101⟩]).map
        fun r => r.app_id) = ["com.x.y"] := rfl
    rw [hl] at ha
    rcases List.mem_singleton.mp ha with rfl
    exact ⟨⟨"Android", "1.1.0", "first_open", "android_555_first_open", 101,
      "com.x.y"⟩, by decide, rfl, ⟨1, 1, 0⟩, by decide, by decide⟩

/-! ## Claim C8. -/

/-- C8 (counterexample): `IntervalEventsRule.check_rule` reads the wall
clock — the same collectors data yields no violation when run the day after
the observation but one violation when run three days later. -/
theorem interval_time_dependence_cx :
    IntervalEventsRule.check_rule ["com.x.y"]
      ⟨some [⟨"com.x.y", 555, "purchase", "android_555_purchase"⟩],
       some [⟨555, "Android", "1.0.0", "purchase", 1,
         "android_555_purchase", 100⟩]⟩ 100 = [] ∧
    IntervalEventsRule.check_rule ["com.x.y"]
      ⟨some [⟨"com.x.y", 555, "purchase", "android_555_purchase"⟩],
       some [⟨555, "Android", "1.0.0", "purchase", 1,
         "android_555_purchase", 100⟩]⟩ 103 =
      [⟨"purchase", "com.x.y", 24⟩] ∧
    ([] : List IntervalEvent) ≠ [⟨"purchase", "com.x.y", 24⟩] :=
  ⟨rfl, rfl, by decide⟩

/-- C8 (amended): each `check_rule` is a deterministic function of its
collectors data and the current clock; the clock enters only through the
one-day lookback (interval rule) and the seven-day store window (version
rule), so runs whose clock values induce the same filters agree. -/
theorem check_rule_deterministic_given_clock :
    (∀ (app_ids : List String) (gads : List GadsRow) (ga4 : List Ga4Row)
      (t1 t2 : Int),
      (∀ r ∈ ga4, (t1 - 1 ≤ r.date_added ↔ t2 - 1 ≤ r.date_added)) →
      IntervalEventsRule.check_rule app_ids ⟨some gads, some ga4⟩ t1 =
        IntervalEventsRule.check_rule app_ids ⟨some gads, some ga4⟩ t2) ∧
    (∀ (app_ids : List String) (d : CollectorsData) (t1 t2 : Int),
      d.app_store.map (fun df =>
        VersionEventsRule.get_latest_versions_of_apps df (t1 - 7 * 24)) =
        d.app_store.map (fun df =>
          VersionEventsRule.get_latest_versions_of_apps df (t2 - 7 * 24)) →
      d.play_store.map (fun df =>
        VersionEventsRule.get_latest_versions_of_apps df (t1 - 7 * 24)) =
        d.play_store.map (fun df =>
          VersionEventsRule.get_latest_versions_of_apps df (t2 - 7 * 24)) →
      VersionEventsRule.check_rule app_ids d t1 =
        VersionEventsRule.check_rule app_ids d t2) := by
  constructor
  · intro app_ids gads ga4 t1 t2 hiff
    have hfilter : (filter_by_uids (get_uids app_ids gads) ga4).filter
        (fun r => decide (t1 - 1 ≤ r.date_added)) =
        (filter_by_uids (get_uids app_ids gads) ga4).filter
        (fun r => decide (t2 - 1 ≤ r.date_added)) := by
      apply List.filter_congr
      intro r hr
      exact decide_eq_decide.mpr
        (hiff r (List.mem_filter.mp hr).1)
    unfold IntervalEventsRule.check_rule
    dsimp only
    rw [hfilter]
  · intro app_ids d t1 t2 h1 h2
    rcases d with ⟨das, dga4, dgads, dps⟩
    cases dga4 with
    | none => rfl
    | some ga4 =>
      cases dgads with
      | none => rfl
      | some gads =>
        unfold VersionEventsRule.check_rule
        dsimp only at h1 h2 ⊢
        rw [h1, h2]

/-- Witness for the amended C8 statement at concrete data and two clock
values inducing the same filters. -/
theorem check_rule_deterministic_given_clock_witness :
    IntervalEventsRule.check_rule ["com.x.y"]
      ⟨some [⟨"com.x.y", 555, "purchase", "android_555_purchase"⟩],
       some [⟨555, "Android", "1.0.0", "purchase", 1,
         "android_555_purchase", 100⟩]⟩ 100 =
    IntervalEventsRule.check_rule ["com.x.y"]
      ⟨some [⟨"com.x.y", 555, "purchase", "android_555_purchase"⟩],
       some [⟨555, "Android", "1.0.0", "purchase", 1,
         "android_555_purchase", 100⟩]⟩ 101 :=
  check_rule_deterministic_given_clock.1 ["com.x.y"] _ _ 100 101 (by decide)


namespace VersionEventsRule

/-- For an iOS app with a present, non-empty (already windowed) App Store
frame, `get_app_missing_events` hands over to the store check. -/
theorem get_app_missing_events_ios_store (conv : List ConvRow) (a : String)
    (s : List StoreRow) (r : ConvRow) (rest : List ConvRow) (cur : String)
    (hne : conv.filter (fun x => x.app_id == a) = r :: rest)
    (hos : lowerStr r.os = "ios")
    (hs : s ≠ [])
    (hfl : find_latest_version (get_versions
      (conv.filter fun x => x.app_id == a)) = .ok cur) :
    get_app_missing_events a conv ⟨some s, none⟩ =
      get_missing_events_app_store s a cur := by
  unfold get_app_missing_events
  dsimp only
  rw [hfl]
  dsimp only
  rw [hne]
  dsimp only
  rw [hos]
  rw [if_pos (show (("ios" : String) == "ios") = true from rfl)]
  rw [if_pos (show (("app_store" : String) == "app_store") = true from rfl)]
  dsimp only
  have hempty : s.isEmpty = false := by
    cases s with
    | nil => exact absurd rfl hs
    | cons x xs => rfl
  rw [hempty]
  rw [if_neg (show ¬ (false = true) by simp)]
  rw [if_pos (show (("app_store" : String) == "app_store") = true from rfl)]

/-- `get_missing_events_app_store` raises when the store frame has no row for
the app. -/
theorem get_missing_events_app_store_no_row (s : List StoreRow)
    (a cur : String) (hrow : s.filter (fun x => x.app_id == a) = []) :
    get_missing_events_app_store s a cur = .error "KeyError: 0" := by
  unfold get_missing_events_app_store
  rw [hrow]

/-- For an app whose first conversion row is not iOS, the Play Store frame
present, and `find_latest_version` succeeding on a non-empty windowed frame,
`get_app_missing_events` hands over to the Play Store check. -/
theorem get_app_missing_events_android_store (conv : List ConvRow) (a : String)
    (s : List StoreRow) (r : ConvRow) (rest : List ConvRow) (cur : String)
    (hne : conv.filter (fun x => x.app_id == a) = r :: rest)
    (hos : (lowerStr r.os == "ios") = false)
    (hs : s ≠ [])
    (hfl : find_latest_version (get_versions
      (conv.filter fun x => x.app_id == a)) = .ok cur) :
    get_app_missing_events a conv ⟨none, some s⟩ =
      get_missing_events_play_store s a cur (r :: rest) := by
  unfold get_app_missing_events
  dsimp only
  rw [hfl]
  dsimp only
  rw [hne]
  dsimp only
  rw [if_neg (show ¬ ((lowerStr r.os == "ios") = true) from by
    rw [hos]; exact Bool.false_ne_true)]
  rw [if_neg (show ¬ ((("play_store" : String) == "app_store") = true) from
    by decide)]
  dsimp only
  have hempty : s.isEmpty = false := by
    cases s with
    | nil => exact absurd rfl hs
    | cons x xs => rfl
  rw [hempty]
  rw [if_neg (show ¬ (false = true) by simp)]
  rw [if_neg (show ¬ ((("play_store" : String) == "app_store") = true) from
    by decide)]

/-- `get_missing_events_play_store` raises when the store frame has no row
for the app. -/
theorem get_missing_events_play_store_no_row (s : List StoreRow)
    (a cur : String) (conv : List ConvRow)
    (hrow : s.filter (fun x => x.app_id == a) = []) :
    get_missing_events_play_store s a cur conv = .error "KeyError: 0" := by
  unfold get_missing_events_play_store
  rw [hrow]

end VersionEventsRule

/-! ## Claim C10. -/

/-- C10: when the marketplace frame matching an app's platform is present and
non-empty overall (after the seven-day/latest-per-app reduction) but holds no
row for that app id, `VersionEventsRule.check_rule` raises (`.loc[0]` on the
empty per-app frame) instead of returning a violation list — on the App Store
path (`get_missing_events_app_store`, first conjunct, iOS apps) and on the
Play Store path (`get_missing_events_play_store`, second conjunct, non-iOS
apps) alike: a store row for the specific app is an unstated precondition of
both store checks. -/
theorem versionRule_missing_store_row_raises :
    (∀ (app_ids : List String) (ga4 : List Ga4Row) (gads : List GadsRow)
      (store : List StoreRow) (now : Int) (a : String) (r : ConvRow)
      (rest : List ConvRow),
      (VersionEventsRule.get_conversion_events app_ids gads ga4).filter
        (fun x => x.app_id == a) = r :: rest →
      lowerStr r.os = "ios" →
      a ∈ uniqueFirst ((VersionEventsRule.get_conversion_events
        app_ids gads ga4).map fun x => x.app_id) →
      VersionEventsRule.get_latest_versions_of_apps store (now - 7 * 24) ≠ [] →
      (VersionEventsRule.get_latest_versions_of_apps store (now - 7 * 24)).filter
        (fun x => x.app_id == a) = [] →
      (VersionEventsRule.check_rule app_ids
        ⟨some store, some ga4, some gads, none⟩ now).isOk = false) ∧
    (∀ (app_ids : List String) (ga4 : List Ga4Row) (gads : List GadsRow)
      (store : List StoreRow) (now : Int) (a : String) (r : ConvRow)
      (rest : List ConvRow),
      (VersionEventsRule.get_conversion_events app_ids gads ga4).filter
        (fun x => x.app_id == a) = r :: rest →
      (lowerStr r.os == "ios") = false →
      a ∈ uniqueFirst ((VersionEventsRule.get_conversion_events
        app_ids gads ga4).map fun x => x.app_id) →
      VersionEventsRule.get_latest_versions_of_apps store (now - 7 * 24) ≠ [] →
      (VersionEventsRule.get_latest_versions_of_apps store (now - 7 * 24)).filter
        (fun x => x.app_id == a) = [] →
      (VersionEventsRule.check_rule app_ids
        ⟨none, some ga4, some gads, some store⟩ now).isOk = false) := by
  constructor
  · intro app_ids ga4 gads store now a r rest hne hos ha hsne hsfil
    have hcr : VersionEventsRule.check_rule app_ids
        ⟨some store, some ga4, some gads, none⟩ now =
        VersionEventsRule.runApps
          (VersionEventsRule.get_conversion_events app_ids gads ga4)
          ⟨some (VersionEventsRule.get_latest_versions_of_apps store
            (now - 7 * 24)), none⟩
          (uniqueFirst ((VersionEventsRule.get_conversion_events
            app_ids gads ga4).map fun x => x.app_id)) := rfl
    rw [hcr]
    apply VersionEventsRule.runApps_isOk_eq_false _ _ _ a ha
    cases hfl : VersionEventsRule.find_latest_version
        (VersionEventsRule.get_versions
          ((VersionEventsRule.get_conversion_events app_ids gads ga4).filter
            fun x => x.app_id == a)) with
    | error e =>
      have hstep : VersionEventsRule.get_app_missing_events a
          (VersionEventsRule.get_conversion_events app_ids gads ga4)
          ⟨some (VersionEventsRule.get_latest_versions_of_apps store
            (now - 7 * 24)), none⟩ = .error e := by
        unfold VersionEventsRule.get_app_missing_events
        dsimp only
        rw [hfl]
      rw [hstep, isOk_error]
    | ok cur =>
      rw [VersionEventsRule.get_app_missing_events_ios_store _ a _ r rest cur
        hne hos hsne hfl,
        VersionEventsRule.get_missing_events_app_store_no_row _ a cur hsfil,
        isOk_error]
  · intro app_ids ga4 gads store now a r rest hne hos ha hsne hsfil
    have hcr : VersionEventsRule.check_rule app_ids
        ⟨none, some ga4, some gads, some store⟩ now =
        VersionEventsRule.runApps
          (VersionEventsRule.get_conversion_events app_ids gads ga4)
          ⟨none, some (VersionEventsRule.get_latest_versions_of_apps store
            (now - 7 * 24))⟩
          (uniqueFirst ((VersionEventsRule.get_conversion_events
            app_ids gads ga4).map fun x => x.app_id)) := rfl
    rw [hcr]
    apply VersionEventsRule.runApps_isOk_eq_false _ _ _ a ha
    cases hfl : VersionEventsRule.find_latest_version
        (VersionEventsRule.get_versions
          ((VersionEventsRule.get_conversion_events app_ids gads ga4).filter
            fun x => x.app_id == a)) with
    | error e =>
      have hstep : VersionEventsRule.get_app_missing_events a
          (VersionEventsRule.get_conversion_events app_ids gads ga4)
          ⟨none, some (VersionEventsRule.get_latest_versions_of_apps store
            (now - 7 * 24))⟩ = .error e := by
        unfold VersionEventsRule.get_app_missing_events
        dsimp only
        rw [hfl]
      rw [hstep, isOk_error]
    | ok cur =>
      rw [VersionEventsRule.get_app_missing_events_android_store _ a _ r rest
        cur hne hos hsne hfl,
        VersionEventsRule.get_missing_events_play_store_no_row _ a cur _ hsfil,
        isOk_error]

/-- Witness for C10 at concrete data, one run per store path: the windowed
store frame holds a row only for a different app (`999`). -/
theorem versionRule_missing_store_row_raises_witness :
    (VersionEventsRule.check_rule ["555"]
      ⟨some [⟨"999", "2.0.0", 2410⟩],
       some [⟨777, "iOS", "1.0.0", "purchase", 1, "ios_777_purchase", 100⟩,
             ⟨777, "iOS", "1.0.0", "first_open", 1, "ios_777_first_open", 100⟩,
             ⟨777, "iOS", "1.1.0", "first_open", 1, "ios_777_first_open", 100⟩],
       some [⟨"555", 777, "purchase", "ios_777_purchase"⟩,
             ⟨"555", 777, "first_open", "ios_777_first_open"⟩],
       none⟩ 2450).isOk = false ∧
    (VersionEventsRule.check_rule ["556"]
      ⟨none,
       some [⟨888, "Android", "1.0.0", "purchase", 1, "and_888_purchase", 100⟩],
       some [⟨"556", 888, "purchase", "and_888_purchase"⟩],
       some [⟨"999", "42", 2410⟩]⟩ 2450).isOk = false := by
  constructor
  · apply versionRule_missing_store_row_raises.1 _ _ _ _ 2450 "555"
      ⟨"iOS", "1.0.0", "purchase", "ios_777_purchase", 100, "555"⟩ _
    · rfl
    · rfl
    · decide
    · decide
    · rfl
  · apply versionRule_missing_store_row_raises.2 _ _ _ _ 2450 "556"
      ⟨"Android", "1.0.0", "purchase", "and_888_purchase", 100, "556"⟩ _
    · rfl
    · rfl
    · decide
    · decide
    · rfl


/-! ## Counting lemmas for the interval rule. -/

theorem count_map_events (a e : String) (p : GadsRow → Bool) :
    ∀ l : List GadsRow,
    ((l.filter p).map fun r => (⟨r.event_name, r.app_id, 24⟩ : IntervalEvent)).count
        ⟨e, a, 24⟩ =
    (l.filter fun r => (r.app_id == a && r.event_name == e) && p r).length := by
  intro l
  induction l with
  | nil => rfl
  | cons x xs ih =>
    by_cases hp : p x = true
    · rw [List.filter_cons_of_pos hp, List.map_cons, List.count_cons]
      by_cases hpair : x.app_id = a ∧ x.event_name = e
      · have hc : ((⟨x.event_name, x.app_id, 24⟩ : IntervalEvent) ==
            ⟨e, a, 24⟩) = true := by
          rw [beq_iff_eq, hpair.1, hpair.2]
        have hcond : ((x.app_id == a && x.event_name == e) && p x) = true := by
          rw [beq_iff_eq.mpr hpair.1, beq_iff_eq.mpr hpair.2, hp]
          rfl
        rw [if_pos hc, List.filter_cons, if_pos hcond, List.length_cons, ih]
      · have hc : ¬ ((⟨x.event_name, x.app_id, 24⟩ : IntervalEvent) ==
            ⟨e, a, 24⟩) = true := by
          rw [beq_iff_eq]
          intro hmk
          injection hmk with h1 h2 h3
          exact hpair ⟨h2, h1⟩
        have hcond : ¬ ((x.app_id == a && x.event_name == e) && p x) = true := by
          intro h
          have h' := (Bool.and_eq_true _ _).mp h
          have h'' := (Bool.and_eq_true _ _).mp h'.1
          exact hpair ⟨beq_iff_eq.mp h''.1, beq_iff_eq.mp h''.2⟩
        rw [if_neg hc, List.filter_cons, if_neg hcond, ih]
        omega
    · have hcond : ¬ ((x.app_id == a && x.event_name == e) && p x) = true := by
        intro h
        exact hp ((Bool.and_eq_true _ _).mp h).2
      rw [List.filter_cons_of_neg hp, List.filter_cons, if_neg hcond, ih]

theorem length_filter_pair_nodup (a e : String) (q : GadsRow → Bool) :
    ∀ l : List GadsRow,
    (l.map fun r => (r.app_id, r.event_name)).Nodup →
    (l.filter fun r => (r.app_id == a && r.event_name == e) && q r).length ≤ 1 ∧
    ((l.filter fun r => (r.app_id == a && r.event_name == e) && q r).length = 1 ↔
      ∃ r ∈ l, r.app_id = a ∧ r.event_name = e ∧ q r = true) := by
  intro l
  induction l with
  | nil => exact fun _ => ⟨by simp, by simp⟩
  | cons x xs ih =>
    intro hnd
    rw [List.map_cons, List.nodup_cons] at hnd
    obtain ⟨hx, hnd'⟩ := hnd
    obtain ⟨ih1, ih2⟩ := ih hnd'
    by_cases hpair : x.app_id = a ∧ x.event_name = e
    · have htail : (xs.filter fun r =>
          (r.app_id == a && r.event_name == e) && q r) = [] := by
        apply List.filter_eq_nil_iff.mpr
        intro r hr hcond
        have h' := (Bool.and_eq_true _ _).mp ((Bool.and_eq_true _ _).mp hcond).1
        apply hx
        have : (r.app_id, r.event_name) = (x.app_id, x.event_name) := by
          rw [beq_iff_eq.mp h'.1, beq_iff_eq.mp h'.2, hpair.1, hpair.2]
        rw [← this]
        exact List.mem_map.mpr ⟨r, hr, rfl⟩
      by_cases hq : q x = true
      · have hcond : ((x.app_id == a && x.event_name == e) && q x) = true := by
          rw [beq_iff_eq.mpr hpair.1, beq_iff_eq.mpr hpair.2, hq]
          rfl
        rw [List.filter_cons, if_pos hcond, htail]
        refine ⟨by simp, ?_⟩
        simp only [List.length_singleton, true_iff]
        exact ⟨x, List.mem_cons_self _ _, hpair.1, hpair.2, hq⟩
      · have hcond : ¬ ((x.app_id == a && x.event_name == e) && q x) = true := by
          intro h
          exact hq ((Bool.and_eq_true _ _).mp h).2
        rw [List.filter_cons, if_neg hcond, htail]
        refine ⟨by simp, ?_⟩
        simp only [List.length_nil]
        constructor
        · intro h01
          exact absurd h01 (by simp)
        · rintro ⟨r, hr, hra, hre, hrq⟩
          rcases List.mem_cons.mp hr with rfl | hr'
          · exact absurd hrq hq
          · exfalso
            apply hx
            have : (r.app_id, r.event_name) = (x.app_id, x.event_name) := by
              rw [hra, hre, hpair.1, hpair.2]
            rw [← this]
            exact List.mem_map.mpr ⟨r, hr', rfl⟩
    · have hcond : ¬ ((x.app_id == a && x.event_name == e) && q x) = true := by
        intro h
        have h' := (Bool.and_eq_true _ _).mp ((Bool.and_eq_true _ _).mp h).1
        exact hpair ⟨beq_iff_eq.mp h'.1, beq_iff_eq.mp h'.2⟩
      rw [List.filter_cons, if_neg hcond]
      refine ⟨ih1, ?_⟩
      rw [ih2]
      constructor
      · rintro ⟨r, hr, hprops⟩
        exact ⟨r, List.mem_cons_of_mem _ hr, hprops⟩
      · rintro ⟨r, hr, hra, hre, hrq⟩
        rcases List.mem_cons.mp hr with rfl | hr'
        · exact absurd ⟨hra, hre⟩ hpair
        · exact ⟨r, hr', hra, hre, hrq⟩

/-- The uid-seen set of the interval rule coincides, for monitored Ads rows,
with "some GA4 row with this uid was added within the lookback window". -/
theorem interval_seen_iff (app_ids : List String) (gads : List GadsRow)
    (ga4 : List Ga4Row) (today : Int) (r : GadsRow) (hr : r ∈ gads)
    (hmon : r.app_id ∈ app_ids) :
    (uniqueFirst ((add_app_ids gads
        ((filter_by_uids (get_uids app_ids gads) ga4).filter
          fun g => decide (today - 1 ≤ g.date_added))).map
        fun m => m.uid)).contains r.uid = true ↔
    ∃ g ∈ ga4, g.uid = r.uid ∧ today - 1 ≤ g.date_added := by
  rw [contains_iff_mem, mem_uniqueFirst]
  constructor
  · intro h
    obtain ⟨m, hm, hmu⟩ := List.mem_map.mp h
    obtain ⟨g, hg, ad, _, _, rfl⟩ := (mem_add_app_ids _ _ m).mp hm
    obtain ⟨hg1, hg2⟩ := List.mem_filter.mp hg
    have hg1' := List.mem_filter.mp hg1
    exact ⟨g, hg1'.1, hmu, of_decide_eq_true hg2⟩
  · rintro ⟨g, hg, hgu, hgd⟩
    have hruid : r.uid ∈ get_uids app_ids gads := by
      unfold get_uids
      rw [mem_uniqueFirst]
      exact List.mem_map.mpr ⟨r,
        List.mem_filter.mpr ⟨hr, (contains_iff_mem _ _).mpr hmon⟩, rfl⟩
    have hgmem : g ∈ (filter_by_uids (get_uids app_ids gads) ga4).filter
        (fun g => decide (today - 1 ≤ g.date_added)) := by
      apply List.mem_filter.mpr
      refine ⟨?_, decide_eq_true hgd⟩
      unfold filter_by_uids
      apply List.mem_filter.mpr
      refine ⟨hg, ?_⟩
      rw [hgu]
      exact (contains_iff_mem _ _).mpr hruid
    apply List.mem_map.mpr
    refine ⟨⟨g.os, g.app_version, g.event_name, g.uid, g.date_added, r.app_id⟩,
      ?_, hgu⟩
    exact (mem_add_app_ids _ _ _).mpr ⟨g, hgmem, r, hr, hgu.symm, rfl⟩


/-! ## Claim C2. -/

/-- C2 (counterexample): one (app_id, event_name) pair backed by two
conversion actions on different properties (two Ads rows, two uids), both
unseen in analytics, yields TWO IntervalEvents for the pair, not exactly
one. -/
theorem interval_duplicate_pair_cx :
    IntervalEventsRule.check_rule ["com.x.y"]
      ⟨some [⟨"com.x.y", 555, "purchase", "android_555_purchase"⟩,
             ⟨"com.x.y", 556, "purchase", "android_556_purchase"⟩],
       some [⟨555, "Android", "1.0.0", "purchase", 1,
         "android_555_purchase", 50⟩]⟩ 100 =
      [⟨"purchase", "com.x.y", 24⟩, ⟨"purchase", "com.x.y", 24⟩] ∧
    (IntervalEventsRule.check_rule ["com.x.y"]
      ⟨some [⟨"com.x.y", 555, "purchase", "android_555_purchase"⟩,
             ⟨"com.x.y", 556, "purchase", "android_556_purchase"⟩],
       some [⟨555, "Android", "1.0.0", "purchase", 1,
         "android_555_purchase", 50⟩]⟩ 100).count ⟨"purchase", "com.x.y", 24⟩ =
      2 :=
  ⟨rfl, rfl⟩

/-- C2 (amended): the rule emits one IntervalEvent per Ads-source ROW; when
the (app_id, event_name) pairs of the Ads rows are pairwise distinct, each
monitored pair whose uid has no analytics row within the lookback window
yields exactly one `IntervalEvent(event_name, app_id, 24)` and every other
pair yields none; and `create_alerts` derives each `alert_id`
deterministically as `IntervalEventsRule_{app_id}_{event_name}_{interval}`,
so identical inputs always yield identical ids. -/
theorem interval_events_per_pair :
    ∀ (app_ids : List String) (gads : List GadsRow) (ga4 : List Ga4Row)
      (today : Int) (a e : String),
      (gads.map fun r => (r.app_id, r.event_name)).Nodup →
      (((IntervalEventsRule.check_rule app_ids ⟨some gads, some ga4⟩
          today).count ⟨e, a, 24⟩ ≤ 1) ∧
       ((IntervalEventsRule.check_rule app_ids ⟨some gads, some ga4⟩
          today).count ⟨e, a, 24⟩ = 1 ↔
        ∃ r ∈ gads, r.app_id = a ∧ r.event_name = e ∧ a ∈ app_ids ∧
          ¬ ∃ g ∈ ga4, g.uid = r.uid ∧ today - 1 ≤ g.date_added)) ∧
      (∀ ts : Int, (IntervalEventsRule.create_alerts ts
          (IntervalEventsRule.check_rule app_ids ⟨some gads, some ga4⟩
            today)).map (fun al => al.alert_id) =
        (IntervalEventsRule.check_rule app_ids ⟨some gads, some ga4⟩
          today).map (fun v => "IntervalEventsRule_" ++ v.app_id ++ "_" ++
            v.event_name ++ "_" ++ toString v.interval)) := by
  intro app_ids gads ga4 today a e hnd
  have hshape : IntervalEventsRule.check_rule app_ids ⟨some gads, some ga4⟩
      today =
      ((gads.filter fun r => !(uniqueFirst ((add_app_ids gads
          ((filter_by_uids (get_uids app_ids gads) ga4).filter
            fun g => decide (today - 1 ≤ g.date_added))).map
          fun m => m.uid)).contains r.uid).filter
        fun r => app_ids.contains r.app_id).map
        fun r => ⟨r.event_name, r.app_id, 24⟩ := rfl
  constructor
  · rw [hshape, List.filter_filter, count_map_events]
    obtain ⟨hle, hiff⟩ := length_filter_pair_nodup a e _ gads hnd
    refine ⟨hle, ?_⟩
    rw [hiff]
    constructor
    · rintro ⟨r, hr, hra, hre, hq⟩
      obtain ⟨hq1, hq2⟩ := (Bool.and_eq_true _ _).mp hq
      have hmon : r.app_id ∈ app_ids := (contains_iff_mem _ _).mp hq1
      refine ⟨r, hr, hra, hre, hra ▸ hmon, ?_⟩
      intro hexists
      have hseen := (interval_seen_iff app_ids gads ga4 today r hr hmon).mpr
        hexists
      rw [hseen] at hq2
      exact Bool.noConfusion hq2
    · rintro ⟨r, hr, hra, hre, hamem, hno⟩
      have hmon : r.app_id ∈ app_ids := hra ▸ hamem
      refine ⟨r, hr, hra, hre, ?_⟩
      have hseen : (uniqueFirst ((add_app_ids gads
          ((filter_by_uids (get_uids app_ids gads) ga4).filter
            fun g => decide (today - 1 ≤ g.date_added))).map
          fun m => m.uid)).contains r.uid = false := by
        cases hcase : (uniqueFirst ((add_app_ids gads
            ((filter_by_uids (get_uids app_ids gads) ga4).filter
              fun g => decide (today - 1 ≤ g.date_added))).map
            fun m => m.uid)).contains r.uid with
        | false => rfl
        | true =>
          exact absurd ((interval_seen_iff app_ids gads ga4 today r hr
            hmon).mp hcase) hno
      rw [(contains_iff_mem _ _).mpr hmon, hseen]
      rfl
  · intro ts
    simp only [IntervalEventsRule.create_alerts, List.map_map]
    rfl

/-- Witness for the amended C2 statement: the end-to-end example — one Ads
row for (com.x.y, purchase) with no recent analytics row — yields exactly
one IntervalEvent and the alert id `IntervalEventsRule_com.x.y_purchase_24`. -/
theorem interval_events_per_pair_witness :
    ((IntervalEventsRule.check_rule ["com.x.y"]
        ⟨some [⟨"com.x.y", 555, "purchase", "android_555_purchase"⟩],
         some [⟨555, "Android", "1.0.0", "purchase", 1,
           "android_555_purchase", 50⟩]⟩ 100).count
      ⟨"purchase", "com.x.y", 24⟩ = 1) ∧
    (IntervalEventsRule.create_alerts 0
        (IntervalEventsRule.check_rule ["com.x.y"]
          ⟨some [⟨"com.x.y", 555, "purchase", "android_555_purchase"⟩],
           some [⟨555, "Android", "1.0.0", "purchase", 1,
             "android_555_purchase", 50⟩]⟩ 100)).map (fun al => al.alert_id) =
      ["IntervalEventsRule_com.x.y_purchase_24"] := by
  constructor
  · apply (interval_events_per_pair ["com.x.y"]
      [⟨"com.x.y", 555, "purchase", "android_555_purchase"⟩]
      [⟨555, "Android", "1.0.0", "purchase", 1, "android_555_purchase", 50⟩]
      100 "com.x.y" "purchase" (by decide)).1.2.mpr
    exact ⟨⟨"com.x.y", 555, "purchase", "android_555_purchase"⟩, by decide,
      rfl, rfl, by decide, by decide⟩
  · rfl


namespace VersionEventsRule

/-- With no marketplace data, `get_app_missing_events` computes exactly the
generic version-to-version diff: there are `cur`/`prev` produced by the two
version finders such that the result is one `VersionEventsEvent` per event
name seen under `prev` but not under `cur`. -/
theorem get_app_missing_events_no_store_shape (conv : List ConvRow)
    (a : String)
    (hparse : ∀ r ∈ conv, is_version r.app_version = true →
      (parseVer r.app_version).isSome = true)
    (hpos : ∃ r ∈ conv, r.app_id = a ∧ ∃ u, parseVer r.app_version = some u ∧
      verLt ⟨0, 0, 0⟩ u = true) :
    ∃ cur prev : String,
      find_latest_version (get_versions
        (conv.filter fun x => x.app_id == a)) = .ok cur ∧
      find_previous_version cur (get_versions
        (conv.filter fun x => x.app_id == a)) = .ok prev ∧
      get_app_missing_events a conv ⟨none, none⟩ =
        .ok (((get_events_for_version prev
            (conv.filter fun x => x.app_id == a)).filter
          (fun en => !(get_events_for_version cur
            (conv.filter fun x => x.app_id == a)).contains en)).map
          (fun en => ⟨en, a, cur, prev⟩)) := by
  have hparse' : ∀ v ∈ get_versions (conv.filter fun x => x.app_id == a),
      is_version v = true → (parseVer v).isSome = true := by
    intro v hv hval
    obtain ⟨x, hx, rfl⟩ := List.mem_map.mp ((mem_uniqueFirst _ _).mp hv)
    exact hparse x ((mem_app_events conv a x).mp hx).1 hval
  have hpos' : ∃ v ∈ get_versions (conv.filter fun x => x.app_id == a),
      ∃ u, parseVer v = some u ∧ verLt ⟨0, 0, 0⟩ u = true := by
    obtain ⟨r, hr, hra, u, hu, hupos⟩ := hpos
    refine ⟨r.app_version, ?_, u, hu, hupos⟩
    exact (mem_uniqueFirst _ _).mpr
      (List.mem_map.mpr ⟨r, (mem_app_events conv a r).mpr ⟨hr, hra⟩, rfl⟩)
  obtain ⟨m, hfl, _, _, _⟩ := find_latest_spec _ hparse' hpos'
  obtain ⟨r0, hr0, hr0a, _, _, _⟩ := hpos
  rcases hne : conv.filter (fun x => x.app_id == a) with _ | ⟨r, rest⟩
  · exfalso
    have hmem : r0 ∈ conv.filter (fun x => x.app_id == a) :=
      (mem_app_events conv a r0).mpr ⟨hr0, hr0a⟩
    rw [hne] at hmem
    simp at hmem
  · have hfpok := (find_previous_spec (verToString m)
      (get_versions (conv.filter fun x => x.app_id == a)) m
      (parseVer_verToString m) hparse').1
    cases hfpv : find_previous_version (verToString m)
        (get_versions (conv.filter fun x => x.app_id == a)) with
    | error e =>
      rw [hfpv, isOk_error] at hfpok
      exact Bool.noConfusion hfpok
    | ok prev =>
      exact ⟨verToString m, prev, hfl, hfpv,
        get_app_missing_events_no_store_eq conv a r rest (verToString m) prev
          hne hfl hfpv⟩

end VersionEventsRule

/-! ## Claim C7. -/

/-- C7: with both marketplace feeds absent, `VersionEventsRule.check_rule`
falls back to the generic version diff for every monitored app: it succeeds,
and for each app id in the joined conversion-events table the violations for
that app are exactly one `VersionEventsEvent(event, app_id, cur, prev)` per
event name seen under the previous version `prev` but not under the current
version `cur`, where `cur`/`prev` are the two latest semantic versions the
version finders return. (Hypotheses: regex-valid version strings parse
strictly, and every app has some version above `0.0.0`.) -/
theorem versionRule_no_store_fallback :
    ∀ (app_ids : List String) (ga4 : List Ga4Row) (gads : List GadsRow)
      (now : Int),
      (∀ g ∈ ga4, is_version g.app_version = true →
        (parseVer g.app_version).isSome = true) →
      (∀ a ∈ uniqueFirst ((VersionEventsRule.get_conversion_events
          app_ids gads ga4).map fun r => r.app_id),
        ∃ r ∈ VersionEventsRule.get_conversion_events app_ids gads ga4,
          r.app_id = a ∧ ∃ u, parseVer r.app_version = some u ∧
            verLt ⟨0, 0, 0⟩ u = true) →
      ∃ evs : List VersionEventsEvent,
        VersionEventsRule.check_rule app_ids
          ⟨none, some ga4, some gads, none⟩ now = .ok evs ∧
        ∀ a ∈ uniqueFirst ((VersionEventsRule.get_conversion_events
            app_ids gads ga4).map fun r => r.app_id),
          ∀ cur prev : String,
            VersionEventsRule.find_latest_version
              (VersionEventsRule.get_versions
                ((VersionEventsRule.get_conversion_events app_ids gads
                  ga4).filter fun r => r.app_id == a)) = .ok cur →
            VersionEventsRule.find_previous_version cur
              (VersionEventsRule.get_versions
                ((VersionEventsRule.get_conversion_events app_ids gads
                  ga4).filter fun r => r.app_id == a)) = .ok prev →
            evs.filter (fun v => v.app_id == a) =
              ((VersionEventsRule.get_events_for_version prev
                  ((VersionEventsRule.get_conversion_events app_ids gads
                    ga4).filter fun r => r.app_id == a)).filter
                (fun en => !(VersionEventsRule.get_events_for_version cur
                  ((VersionEventsRule.get_conversion_events app_ids gads
                    ga4).filter fun r => r.app_id == a)).contains en)).map
                (fun en => ⟨en, a, cur, prev⟩) := by
  intro app_ids ga4 gads now hga4 hpos
  have hparse : ∀ r ∈ VersionEventsRule.get_conversion_events app_ids gads ga4,
      is_version r.app_version = true → (parseVer r.app_version).isSome = true := by
    intro r hr hval
    obtain ⟨g, hg, hgv⟩ :=
      VersionEventsRule.mem_conv_version_from_ga4 app_ids gads ga4 r hr
    rw [hgv] at hval ⊢
    exact hga4 g hg hval
  have hshape : ∀ a ∈ uniqueFirst ((VersionEventsRule.get_conversion_events
      app_ids gads ga4).map fun r => r.app_id),
      ∃ cur prev : String,
        VersionEventsRule.find_latest_version (VersionEventsRule.get_versions
          ((VersionEventsRule.get_conversion_events app_ids gads ga4).filter
            fun x => x.app_id == a)) = .ok cur ∧
        VersionEventsRule.find_previous_version cur
          (VersionEventsRule.get_versions
            ((VersionEventsRule.get_conversion_events app_ids gads ga4).filter
              fun x => x.app_id == a)) = .ok prev ∧
        VersionEventsRule.get_app_missing_events a
          (VersionEventsRule.get_conversion_events app_ids gads ga4)
          ⟨none, none⟩ =
          .ok (((VersionEventsRule.get_events_for_version prev
              ((VersionEventsRule.get_conversion_events app_ids gads
                ga4).filter fun x => x.app_id == a)).filter
            (fun en => !(VersionEventsRule.get_events_for_version cur
              ((VersionEventsRule.get_conversion_events app_ids gads
                ga4).filter fun x => x.app_id == a)).contains en)).map
            (fun en => ⟨en, a, cur, prev⟩)) :=
    fun a ha => VersionEventsRule.get_app_missing_events_no_store_shape
      (VersionEventsRule.get_conversion_events app_ids gads ga4) a hparse
      (hpos a ha)
  have hblk : ∀ a ∈ uniqueFirst ((VersionEventsRule.get_conversion_events
      app_ids gads ga4).map fun r => r.app_id),
      VersionEventsRule.get_app_missing_events a
        (VersionEventsRule.get_conversion_events app_ids gads ga4)
        ⟨none, none⟩ =
        .ok (match VersionEventsRule.get_app_missing_events a
          (VersionEventsRule.get_conversion_events app_ids gads ga4)
          ⟨none, none⟩ with
          | .ok l => l
          | .error _ => []) := by
    intro a ha
    obtain ⟨cur, prev, _, _, heq⟩ := hshape a ha
    rw [heq]
  have hrun := VersionEventsRule.runApps_eq
    (VersionEventsRule.get_conversion_events app_ids gads ga4) ⟨none, none⟩
    (fun a => match VersionEventsRule.get_app_missing_events a
      (VersionEventsRule.get_conversion_events app_ids gads ga4)
      ⟨none, none⟩ with
      | .ok l => l
      | .error _ => [])
    (uniqueFirst ((VersionEventsRule.get_conversion_events
      app_ids gads ga4).map fun r => r.app_id)) hblk
  have hcr : VersionEventsRule.check_rule app_ids
      ⟨none, some ga4, some gads, none⟩ now =
      VersionEventsRule.runApps
        (VersionEventsRule.get_conversion_events app_ids gads ga4) ⟨none, none⟩
        (uniqueFirst ((VersionEventsRule.get_conversion_events
          app_ids gads ga4).map fun r => r.app_id)) := rfl
  refine ⟨_, hcr.trans hrun, ?_⟩
  intro a ha cur prev hfl hfp
  obtain ⟨cur0, prev0, hfl0, hfp0, heq0⟩ := hshape a ha
  have hcur : cur0 = cur := Except.ok.inj (hfl0.symm.trans hfl)
  subst hcur
  have hprev : prev0 = prev := Except.ok.inj (hfp0.symm.trans hfp)
  subst hprev
  have hfilter := flatMap_filter_app
    (fun b => match VersionEventsRule.get_app_missing_events b
      (VersionEventsRule.get_conversion_events app_ids gads ga4)
      ⟨none, none⟩ with
      | .ok l => l
      | .error _ => [])
    (uniqueFirst ((VersionEventsRule.get_conversion_events
      app_ids gads ga4).map fun r => r.app_id)) a
    (uniqueFirst_nodup _) ha ?hall
  case hall =>
    intro b hb v hv
    obtain ⟨curb, prevb, _, _, heqb⟩ := hshape b hb
    dsimp only at hv
    rw [heqb] at hv
    dsimp only at hv
    obtain ⟨en, _, rfl⟩ := List.mem_map.mp hv
    rfl
  rw [hfilter]
  dsimp only
  rw [heq0]


/-- Witness for C7: the end-to-end example — versions 1.0.0 (purchase,
first_open) and 1.1.0 (first_open), no marketplace data — yields exactly
`VersionEvent("purchase", app, "1.1.0", "1.0.0")`, and the general statement
instantiates at this input. -/
theorem versionRule_no_store_fallback_witness :
    VersionEventsRule.check_rule ["com.x.y"]
      ⟨none,
       some [⟨555, "Android", "1.0.0", "purchase", 10, "android_555_purchase", 100⟩,
             ⟨555, "Android", "1.0.0", "first_open", 10, "android_555_first_open", 100⟩,
             ⟨555, "Android", "1.1.0", "first_open", 5, "android_555_first_open", 101⟩],
       some [⟨"com.x.y", 555, "purchase", "android_555_purchase"⟩,
             ⟨"com.x.y", 555, "first_open", "android_555_first_open"⟩],
       none⟩ 2450 =
      .ok [⟨"purchase", "com.x.y", "1.1.0", "1.0.0"⟩] ∧
    ∃ evs : List VersionEventsEvent,
      VersionEventsRule.check_rule ["com.x.y"]
        ⟨none,
         some [⟨555, "Android", "1.0.0", "purchase", 10, "android_555_purchase", 100⟩,
               ⟨555, "Android", "1.0.0", "first_open", 10, "android_555_first_open", 100⟩,
               ⟨555, "Android", "1.1.0", "first_open", 5, "android_555_first_open", 101⟩],
         some [⟨"com.x.y", 555, "purchase", "android_555_purchase"⟩,
               ⟨"com.x.y", 555, "first_open", "android_555_first_open"⟩],
         none⟩ 2450 = .ok evs ∧
      ∀ a ∈ uniqueFirst ((VersionEventsRule.get_conversion_events ["com.x.y"]
          [⟨"com.x.y", 555, "purchase", "android_555_purchase"⟩,
           ⟨"com.x.y", 555, "first_open", "android_555_first_open"⟩]
          [⟨555, "Android", "1.0.0", "purchase", 10, "android_555_purchase", 100⟩,
           ⟨555, "Android", "1.0.0", "first_open", 10, "android_555_first_open", 100⟩,
           ⟨555, "Android", "1.1.0", "first_open", 5, "android_555_first_open", 101⟩]).map
          fun r => r.app_id),
        ∀ cur prev : String,
          VersionEventsRule.find_latest_version
            (VersionEventsRule.get_versions
              ((VersionEventsRule.get_conversion_events ["com.x.y"]
                [⟨"com.x.y", 555, "purchase", "android_555_purchase"⟩,
                 ⟨"com.x.y", 555, "first_open", "android_555_first_open"⟩]
                [⟨555, "Android", "1.0.0", "purchase", 10, "android_555_purchase", 100⟩,
                 ⟨555, "Android", "1.0.0", "first_open", 10, "android_555_first_open", 100⟩,
                 ⟨555, "Android", "1.1.0", "first_open", 5, "android_555_first_open", 101⟩]).filter
                fun r => r.app_id == a)) = .ok cur →
          VersionEventsRule.find_previous_version cur
            (VersionEventsRule.get_versions
              ((VersionEventsRule.get_conversion_events ["com.x.y"]
                [⟨"com.x.y", 555, "purchase", "android_555_purchase"⟩,
                 ⟨"com.x.y", 555, "first_open", "android_555_first_open"⟩]
                [⟨555, "Android", "1.0.0", "purchase", 10, "android_555_purchase", 100⟩,
                 ⟨555, "Android", "1.0.0", "first_open", 10, "android_555_first_open", 100⟩,
                 ⟨555, "Android", "1.1.0", "first_open", 5, "android_555_first_open", 101⟩]).filter
                fun r => r.app_id == a)) = .ok prev →
          evs.filter (fun v => v.app_id == a) =
            ((VersionEventsRule.get_events_for_version prev
                ((VersionEventsRule.get_conversion_events ["com.x.y"]
                  [⟨"com.x.y", 555, "purchase", "android_555_purchase"⟩,
                   ⟨"com.x.y", 555, "first_open", "android_555_first_open"⟩]
                  [⟨555, "Android", "1.0.0", "purchase", 10, "android_555_purchase", 100⟩,
                   ⟨555, "Android", "1.0.0", "first_open", 10, "android_555_first_open", 100⟩,
                   ⟨555, "Android", "1.1.0", "first_open", 5, "android_555_first_open", 101⟩]).filter
                  fun r => r.app_id == a)).filter
              (fun en => !(VersionEventsRule.get_events_for_version cur
                ((VersionEventsRule.get_conversion_events ["com.x.y"]
                  [⟨"com.x.y", 555, "purchase", "android_555_purchase"⟩,
                   ⟨"com.x.y", 555, "first_open", "android_555_first_open"⟩]
                  [⟨555, "Android", "1.0.0", "purchase", 10, "android_555_purchase", 100⟩,
                   ⟨555, "Android", "1.0.0", "first_open", 10, "android_555_first_open", 100⟩,
                   ⟨555, "Android", "1.1.0", "first_open", 5, "android_555_first_open", 101⟩]).filter
                  fun r => r.app_id == a)).contains en)).map
              (fun en => ⟨en, a, cur, prev⟩) := by
  constructor
  · rfl
  · apply versionRule_no_store_fallback ["com.x.y"]
      [⟨555, "Android", "1.0.0", "purchase", 10, "android_555_purchase", 100⟩,
       ⟨555, "Android", "1.0.0", "first_open", 10, "android_555_first_open", 100⟩,
       ⟨555, "Android", "1.1.0", "first_open", 5, "android_555_first_open", 101⟩]
      [⟨"com.x.y", 555, "purchase", "android_555_purchase"⟩,
       ⟨"com.x.y", 555, "first_open", "android_555_first_open"⟩] 2450
    · decide
    · intro a ha
      have hl : uniqueFirst ((VersionEventsRule.get_conversion_events ["com.x.y"]
          [⟨"com.x.y", 555, "purchase", "android_555_purchase"⟩,
           ⟨"com.x.y", 555, "first_open", "android_555_first_open"⟩]
          [⟨555, "Android", "1.0.0", "purchase", 10, "android_555_purchase", 100⟩,
           ⟨555, "Android", "1.0.0", "first_open", 10, "android_555_first_open", 100⟩,
           ⟨555, "Android", "1.1.0", "first_open", 5, "android_555_first_open", 101⟩]).map
          fun r => r.app_id) = ["com.x.y"] := rfl
      rw [hl] at ha
      rcases List.mem_singleton.mp ha with rfl
      exact ⟨⟨"Android", "1.1.0", "first_open", "android_555_first_open", 101,
        "com.x.y"⟩, by decide, rfl, ⟨1, 1, 0⟩, by decide, by decide⟩

end ACProtect
